import Mathlib

/-!
Verification development for the graph-metrics plugin: a shallow embedding of
the enhanced-graph service (graph construction, incremental cache updates,
single-source and bidirectional BFS path search, alternative-path DFS) and of
the hub-detection / path-analysis metrics (PageRank, clustering coefficient),
together with theorems settling the specification claims.

Conventions of the embedding:
* JavaScript objects keyed by strings (Record) and Map values are modelled as
  association lists in insertion order; Map.set replaces the value in place
  when the key is present and appends otherwise, matching JS Map semantics.
* Numbers are modelled with Nat/Int for counters and distances and with ℚ for
  the metric computations (the source only adds, multiplies and divides).
* External collaborators (the vault: document enumeration, file text already
  split into reference tokens by the wiki or embed regexes, tag metadata) are
  inputs, per the spec's external-interface section.  The token lists carry
  the text produced by match[1].split('#')[0].split('|')[0].trim().
* While-loops whose bound is not structural are given an explicit fuel that
  provably dominates the number of iterations the source loop can make; the
  justification is given at each definition.
-/

/-- Connection type enumeration from the graph service. -/
inductive ConnectionType where
  | direct
  | backlink
  | tag
  | embedded
deriving DecidableEq, Repr

/-- Metadata snapshot stored on an edge (title and tags of the target). -/
structure ConnMetadata where
  title : Option String
  tags : Option (List String)
  excerpt : Option String
deriving DecidableEq, Repr

/-- Edge payload: ConnectionInfo from the graph service. -/
structure ConnectionInfo where
  type : ConnectionType
  commonTags : Option (List String) := none
  metadata : Option ConnMetadata := none
deriving DecidableEq, Repr

/-- Adjacency mapping of one node: a JS Map from target path to payload,
in insertion order. -/
abbrev Adj := List (String × ConnectionInfo)

/-- EnhancedGraph: Record from node path to adjacency Map, in key insertion
order. -/
abbrev EnhancedGraph := List (String × Adj)

/-- PathResult returned by the path finders. -/
structure PathResult where
  distance : Int
  path : List String
  connectionTypes : List ConnectionInfo
deriving DecidableEq, Repr

/-- Association-list lookup (Record / Map read; returns none for a missing
key, i.e. JS undefined). -/
def lookupM {α : Type} : List (String × α) → String → Option α
  | [], _ => none
  | (k, v) :: rest, x => if k = x then some v else lookupM rest x

/-- JS Map.set / Record write: replace the first binding of the key in place,
else append a new binding. -/
def mapSet {α : Type} : List (String × α) → String → α → List (String × α)
  | [], k, v => [(k, v)]
  | (k', v') :: rest, k, v =>
    if k' = k then (k, v) :: rest else (k', v') :: mapSet rest k v

/-- JS Map.has / truthiness of a Record read. -/
def mapHas {α : Type} (m : List (String × α)) (k : String) : Bool :=
  (lookupM m k).isSome

/-- The expression graph[node] || new Map(): the node's adjacency, or empty
when the node has no entry. -/
def graphAdj (g : EnhancedGraph) (node : String) : Adj :=
  (lookupM g node).getD []

/-- graph[src].set(tgt, info).  When src has no entry the source would throw
on the Map access; every call site either guarantees the entry exists or
catches the error having made no prior write, so the missing-entry case
leaves the graph unchanged. -/
def graphSetEdge (g : EnhancedGraph) (src tgt : String) (info : ConnectionInfo) :
    EnhancedGraph :=
  match lookupM g src with
  | none => g
  | some adj => mapSet g src (mapSet adj tgt info)

/-- modifiedGraph[node]?.delete(nextNode): remove one edge if the node has an
entry (optional chaining makes the missing case a no-op). -/
def graphDeleteEdge (g : EnhancedGraph) (src tgt : String) : EnhancedGraph :=
  match lookupM g src with
  | none => g
  | some adj => mapSet g src (adj.filter (fun q => q.1 != tgt))

/-- One vault document: canonical path plus display basename. -/
structure VaultFile where
  path : String
  basename : String
deriving DecidableEq, Repr

/-- The external Document Source collaborator: the enumerated files, the
reference tokens extracted from each file's text by the wiki-link regex and
the embedded-link regex (note the wiki regex also matches the bracket part of
every embedded reference, so in a real vault the embed tokens recur in the
wiki tokens; the model keeps the two streams as independent inputs), the
metadata-cache tag list with the leading # stripped, and whether reading the
file succeeds (a failed read is caught and contributes no edges). -/
structure Vault where
  files : List VaultFile
  wikiLinks : String → List String
  embedLinks : String → List String
  tags : String → List String
  readOk : String → Bool

/-- The plugin settings consumed by the graph service. -/
structure Settings where
  cacheGraphStructure : Bool := true
  parallelProcessing : Bool := false
  includeEmbeddedLinks : Bool := true
  includeTagsInAnalysis : Bool := true
  includeBacklinks : Bool := true
  maxPathLength : Nat := 10
  algorithmPreference : String := "auto"

/-- Character-list version of String.includes: p occurs contiguously in s. -/
def isInfixList (p : List Char) : List Char → Bool
  | [] => p.isEmpty
  | c :: rest => (p.isPrefixOf (c :: rest)) || isInfixList p rest

/-- findNoteByName: exact basename match, then case-insensitive match, then
substring match, each by first hit in enumeration order. -/
def findNoteByName (v : Vault) (name : String) : Option VaultFile :=
  match v.files.find? (fun f => f.basename == name) with
  | some f => some f
  | none =>
    match v.files.find? (fun f => f.basename.toLower == name.toLower) with
    | some f => some f
    | none =>
      v.files.find? (fun f => isInfixList name.toLower.toList f.basename.toLower.toList)

/-- getFileMetadata: snapshot of the target's basename and tag list. -/
def getFileMetadata (v : Vault) (f : VaultFile) : ConnMetadata :=
  { title := some f.basename, tags := some (v.tags f.path), excerpt := none }

/-- processFile: discover the Direct, Embedded and Tag edges of one document
and write them into its own adjacency mapping.  All errors inside the source
are caught at the top of processFile: a failed read, or a missing adjacency
entry for the document (which would make the first Map access throw before
any write), leaves the graph unchanged. -/
def processFile (v : Vault) (s : Settings) (f : VaultFile) (g : EnhancedGraph) :
    EnhancedGraph :=
  if (lookupM g f.path).isNone then g
  else if ¬ v.readOk f.path then g
  else
    let fileTags := v.tags f.path
    let g1 := (v.wikiLinks f.path).foldl (fun g linkText =>
      if linkText ≠ "" then
        match findNoteByName v linkText with
        | some lf =>
          graphSetEdge g f.path lf.path
            { type := .direct, metadata := some (getFileMetadata v lf) }
        | none => g
      else g) g
    let g2 := if s.includeEmbeddedLinks then
        (v.embedLinks f.path).foldl (fun g linkText =>
          if linkText ≠ "" then
            match findNoteByName v linkText with
            | some lf =>
              graphSetEdge g f.path lf.path
                { type := .embedded, metadata := some (getFileMetadata v lf) }
            | none => g
          else g) g1
      else g1
    if s.includeTagsInAnalysis ∧ fileTags ≠ [] then
      let tagMatches := v.files.filterMap (fun of =>
        if of.path ≠ f.path then
          let otherTags := v.tags of.path
          if otherTags ≠ [] then
            let commonTags := fileTags.filter (fun t => otherTags.contains t)
            if commonTags ≠ [] then some (of, commonTags) else none
          else none
        else none)
      let sorted := tagMatches.insertionSort (fun a b => b.2.length ≤ a.2.length)
      (sorted.take 50).foldl (fun g oc =>
        graphSetEdge g f.path oc.1.path
          { type := .tag, commonTags := some oc.2,
            metadata := some (getFileMetadata v oc.1) }) g2
    else g2

/-- One edge of the backlink pass: while walking source's adjacency, if the
target has no edge back to source and the source path resolves to a file,
synthesize a Backlink edge at the target. -/
def backlinkEdgeStep (v : Vault) (source : String) (g : EnhancedGraph)
    (te : String × ConnectionInfo) : EnhancedGraph :=
  if mapHas (graphAdj g te.1) source then g
  else
    match v.files.find? (fun f => f.path == source) with
    | some sf =>
      graphSetEdge g te.1 source
        { type := .backlink, metadata := some (getFileMetadata v sf) }
    | none => g

/-- The backlink pass for one source node: fold over its current adjacency
(the source's own Map is never mutated while being walked, since a self-loop
already has its reverse). -/
def backlinkKeyStep (v : Vault) (g : EnhancedGraph) (source : String) :
    EnhancedGraph :=
  (graphAdj g source).foldl (backlinkEdgeStep v source) g

/-- processBacklinks: for every existing edge (source → target), if target
has no edge back to source, add a Backlink edge.  Object.entries snapshots
the key list up front; each inner Map is read live. -/
def processBacklinks (v : Vault) (g : EnhancedGraph) : EnhancedGraph :=
  (g.map Prod.fst).foldl (backlinkKeyStep v) g

/-- The node-initialization pass of buildGraph: every document gets an empty
adjacency Map. -/
def initGraph (v : Vault) : EnhancedGraph :=
  v.files.foldl (fun g f => mapSet g f.path []) []

/-- buildGraph before the optional backlink pass: initialize every document
with an empty adjacency, then process every document.  Batching, the progress
callback and the yield between batches do not affect the resulting graph
(each document writes only its own entry), so the fold is sequential. -/
def buildGraphForward (v : Vault) (s : Settings) : EnhancedGraph :=
  v.files.foldl (fun g f => processFile v s f g) (initGraph v)

/-- buildGraph: forward passes then, if enabled, the backlink pass. -/
def buildGraph (v : Vault) (s : Settings) : EnhancedGraph :=
  let g := buildGraphForward v s
  if s.includeBacklinks then processBacklinks v g else g

/-- Change kinds accepted by updateGraphCache. -/
inductive ChangeKind where
  | create
  | modify
  | delete
deriving DecidableEq, Repr

/-- Delete handling: remove the node's entry and strip every edge that
targets it from the remaining nodes. -/
def stripNode (g : EnhancedGraph) (p : String) : EnhancedGraph :=
  (g.filter (fun e => e.1 != p)).map (fun e => (e.1, e.2.filter (fun q => q.1 != p)))

/-- updateGraphCache on the cached graph (the timestamp bookkeeping is not
modelled; when caching is disabled or no cache exists the graph is left as
is and only the timestamp is invalidated).  create inserts an empty entry and
falls through to the modify handling, which re-runs processFile for the one
document on the cached graph. -/
def updateGraphCache (v : Vault) (s : Settings) (cg : Option EnhancedGraph)
    (f : VaultFile) (ck : ChangeKind) : Option EnhancedGraph :=
  match cg with
  | none => none
  | some g =>
    if ¬ s.cacheGraphStructure then some g
    else
      match ck with
      | .delete => some (stripNode g f.path)
      | .create => some (processFile v s f (mapSet g f.path []))
      | .modify => some (processFile v s f g)

/-- All node names a search can ever visit: every key and every edge target
of the graph (used only for fuel bounds on search loops). -/
def mentions (g : EnhancedGraph) : List String :=
  g.foldl (fun acc p => acc ++ p.1 :: p.2.map Prod.fst) []

/-- A queue entry of the single-source BFS: each entry carries its own path
and connection-type sequence. -/
structure BfsEntry where
  node : String
  distance : Nat
  path : List String
  connectionTypes : List ConnectionInfo
deriving DecidableEq, Repr

/-- The single-source BFS loop.  A node is marked visited on first enqueue,
so every processed entry corresponds to one element of the visited set, which
only ever receives the start node and edge targets of the graph; hence at
most (mentions g).length + 1 entries are ever processed and the fuel
(mentions g).length + 2 is never exhausted — the fuel-0 branch returns the
same no-path result the drained queue would. -/
def bfsGo (s : Settings) (g : EnhancedGraph) (endNode : String) :
    Nat → List BfsEntry → List String → PathResult
  | 0, _, _ => { distance := -1, path := [], connectionTypes := [] }
  | _ + 1, [], _ => { distance := -1, path := [], connectionTypes := [] }
  | fuel + 1, e :: rest, visited =>
    if e.distance ≥ s.maxPathLength then bfsGo s g endNode fuel rest visited
    else if e.node = endNode then
      { distance := (e.distance : Int), path := e.path,
        connectionTypes := e.connectionTypes }
    else
      let step := (graphAdj g e.node).foldl
        (fun (acc : List BfsEntry × List String) q =>
          if acc.2.contains q.1 then acc
          else
            (acc.1 ++ [{ node := q.1, distance := e.distance + 1,
                         path := e.path ++ [q.1],
                         connectionTypes := e.connectionTypes ++ [q.2] }],
             acc.2 ++ [q.1]))
        (rest, visited)
      bfsGo s g endNode fuel step.1 step.2

/-- findShortestPathOriginal: plain BFS over a FIFO queue whose entries carry
their own paths; a node is visited on first enqueue. -/
def findShortestPathOriginal (s : Settings) (g : EnhancedGraph)
    (start endNode : String) : PathResult :=
  bfsGo s g endNode ((mentions g).length + 2)
    [{ node := start, distance := 0, path := [start], connectionTypes := [] }]
    [start]

/-- Per-node record of the bidirectional search frontiers. -/
structure VisitInfo where
  prev : String
  distance : Nat
  connectionInfo : Option ConnectionInfo
deriving DecidableEq, Repr

/-- State of the bidirectional search.  meetingNode and shortestDistance are
initialized together (null / Infinity) and always written together, so they
are carried as one optional pair. -/
structure BiState where
  fv : List (String × VisitInfo)
  fq : List String
  bv : List (String × VisitInfo)
  bq : List String
  best : Option (String × Nat)
deriving DecidableEq, Repr

/-- The shortestDistance component (none is Infinity). -/
def bestDist (b : Option (String × Nat)) : Option Nat := b.map Prod.snd

/-- nodeInfo.distance >= shortestDistance (false against Infinity). -/
def geOpt (d : Nat) : Option Nat → Bool
  | none => false
  | some m => d ≥ m

/-- totalDistance < shortestDistance (true against Infinity). -/
def ltOpt (d : Nat) : Option Nat → Bool
  | none => true
  | some m => d < m

/-- Direct and Backlink are swapped when an edge is read against its stored
direction; other types pass through (used both when materializing backward
neighbors and when re-flipping during path reconstruction). -/
def flipDB (i : ConnectionInfo) : ConnectionInfo :=
  { i with type :=
      match i.type with
      | .direct => .backlink
      | .backlink => .direct
      | t => t }

/-- Expansion of one node of the forward frontier. -/
def expandForwardNode (s : Settings) (g : EnhancedGraph) (st : BiState)
    (node : String) : BiState :=
  match lookupM st.fv node with
  | none => st
  | some info =>
    if info.distance ≥ s.maxPathLength ∨ geOpt info.distance (bestDist st.best) then st
    else
      (graphAdj g node).foldl (fun st q =>
        if (lookupM st.fv q.1).isSome then st
        else
          let st' := { st with
            fv := st.fv ++ [(q.1, { prev := node, distance := info.distance + 1,
                                    connectionInfo := some q.2 })],
            fq := st.fq ++ [q.1] }
          match lookupM st'.bv q.1 with
          | some binfo =>
            let total := info.distance + 1 + binfo.distance
            if ltOpt total (bestDist st'.best) then { st' with best := some (q.1, total) }
            else st'
          | none => st') st

/-- Backward neighbors of a node: every source holding a forward edge to it,
with the edge payload's Direct/Backlink flipped for the reversed direction. -/
def backwardNeighbors (g : EnhancedGraph) (node : String) :
    List (String × ConnectionInfo) :=
  g.filterMap (fun p =>
    match lookupM p.2 node with
    | some info => some (p.1, flipDB info)
    | none => none)

/-- Expansion of one node of the backward frontier. -/
def expandBackwardNode (s : Settings) (g : EnhancedGraph) (st : BiState)
    (node : String) : BiState :=
  match lookupM st.bv node with
  | none => st
  | some info =>
    if info.distance ≥ s.maxPathLength ∨ geOpt info.distance (bestDist st.best) then st
    else
      (backwardNeighbors g node).foldl (fun st q =>
        if (lookupM st.bv q.1).isSome then st
        else
          let st' := { st with
            bv := st.bv ++ [(q.1, { prev := node, distance := info.distance + 1,
                                    connectionInfo := some q.2 })],
            bq := st.bq ++ [q.1] }
          match lookupM st'.fv q.1 with
          | some finfo =>
            let total := info.distance + 1 + finfo.distance
            if ltOpt total (bestDist st'.best) then { st' with best := some (q.1, total) }
            else st'
          | none => st') st

/-- One full level of the forward search: the queue is emptied level-wise
(levelSize shifts) and refilled with the nodes enqueued while expanding. -/
def forwardRound (s : Settings) (g : EnhancedGraph) (st : BiState) : BiState :=
  st.fq.foldl (expandForwardNode s g) { st with fq := [] }

/-- One full level of the backward search. -/
def backwardRound (s : Settings) (g : EnhancedGraph) (st : BiState) : BiState :=
  st.bq.foldl (expandBackwardNode s g) { st with bq := [] }

/-- forwardVisited.get(forwardQueue[0] || "")?.distance || Infinity: an empty
queue reads key "", a missing entry gives Infinity, and a distance of 0 is
falsy so it also yields Infinity. -/
def headDistOrInf (vis : List (String × VisitInfo)) (q : List String) :
    Option Nat :=
  let key := match q with
    | [] => ""
    | n :: _ => n
  match lookupM vis key with
  | none => none
  | some info => if info.distance = 0 then none else some info.distance

/-- Minimum of two possibly-infinite distances. -/
def minOpt : Option Nat → Option Nat → Option Nat
  | none, y => y
  | x, none => x
  | some a, some b => some (min a b)

/-- shortestDistance <= bound, where none is Infinity on either side. -/
def leOptOpt : Option Nat → Option Nat → Bool
  | none, none => true
  | none, some _ => false
  | some _, none => true
  | some a, some b => a ≤ b

/-- The early-exit check after each round. -/
def biBreak (st : BiState) : Bool :=
  match st.best with
  | none => false
  | some (_, sd) =>
    leOptOpt (some sd) (minOpt (headDistOrInf st.fv st.fq) (headDistOrInf st.bv st.bq))

/-- The bidirectional search loop: while both queues are non-empty, expand
one full level of the smaller frontier, then test the early-exit condition.
Every round dequeues its side's whole frontier (at least one entry) and only
enqueues nodes newly added to that side's visited map, and each visited map
only ever receives its root and names from mentions g; hence the total number
of rounds is at most the total number of enqueues, bounded by
2 * (mentions g).length + 2, and the fuel is never exhausted (the fuel-0
branch returns the state unchanged, as the drained loop would). -/
def biLoop (s : Settings) (g : EnhancedGraph) : Nat → BiState → BiState
  | 0, st => st
  | fuel + 1, st =>
    if st.fq.isEmpty ∨ st.bq.isEmpty then st
    else
      let st' := if st.fq.length ≤ st.bq.length then forwardRound s g st
                 else backwardRound s g st
      if biBreak st' then st' else biLoop s g fuel st'

/-- Reconstruction of the forward half: walk the predecessor chain from the
meeting node back to start, unshifting nodes and payloads.  Predecessor
chains strictly decrease the stored distance, so they are shorter than the
visited map and the fuel (length + 1) is never exhausted. -/
def walkForward (fv : List (String × VisitInfo)) (start : String) :
    Nat → String → List String → List ConnectionInfo →
    List String × List ConnectionInfo
  | 0, _, p, cts => (p, cts)
  | fuel + 1, current, p, cts =>
    if current = start then (p, cts)
    else
      match lookupM fv current with
      | none => (p, cts)
      | some info =>
        walkForward fv start fuel info.prev (current :: p)
          (match info.connectionInfo with
           | some ci => ci :: cts
           | none => cts)

/-- Reconstruction of the backward half: walk the predecessor chain from the
meeting node toward end, pushing each predecessor and its re-flipped payload
unless the predecessor is the end node itself (the source skips both pushes
in that final step). -/
def walkBackward (bv : List (String × VisitInfo)) (endNode : String) :
    Nat → String → List String → List ConnectionInfo →
    List String × List ConnectionInfo
  | 0, _, p, cts => (p, cts)
  | fuel + 1, current, p, cts =>
    if current = endNode then (p, cts)
    else
      match lookupM bv current with
      | none => (p, cts)
      | some info =>
        if info.prev ≠ endNode then
          walkBackward bv endNode fuel info.prev (p ++ [info.prev])
            (cts ++ (match info.connectionInfo with
                     | some ci => [flipDB ci]
                     | none => []))
        else walkBackward bv endNode fuel info.prev p cts

/-- findShortestPathBidirectional: run the two-frontier search, then if a
meeting node was found, reconstruct the two halves, concatenate them
(dropping a duplicated meeting node) and return the tracked distance. -/
def findShortestPathBidirectional (s : Settings) (g : EnhancedGraph)
    (start endNode : String) : PathResult :=
  let st0 : BiState := {
    fv := [(start, { prev := "", distance := 0, connectionInfo := none })],
    fq := [start],
    bv := [(endNode, { prev := "", distance := 0, connectionInfo := none })],
    bq := [endNode],
    best := none }
  let st := biLoop s g (2 * (mentions g).length + 2) st0
  match st.best with
  | none => { distance := -1, path := [], connectionTypes := [] }
  | some (m, sd) =>
    let fw := walkForward st.fv start (st.fv.length + 1) m [] []
    let forwardPath := start :: fw.1
    let bw := walkBackward st.bv endNode (st.bv.length + 1) m [] []
    let backwardPath := bw.1 ++ [endNode]
    let path := forwardPath ++
      (match backwardPath with
       | [] => []
       | b0 :: brest => if b0 = m then brest else b0 :: brest)
    { distance := (sd : Int), path := path, connectionTypes := fw.2 ++ bw.2 }

/-- findShortestPath: the edge cases (equal endpoints, missing endpoint),
then strategy selection by graph size and preference. -/
def findShortestPath (s : Settings) (g : EnhancedGraph)
    (start endNode : String) : PathResult :=
  if start = endNode then
    { distance := 0, path := [start], connectionTypes := [] }
  else if (lookupM g start).isNone ∨ (lookupM g endNode).isNone then
    { distance := -1, path := [], connectionTypes := [] }
  else if g.length < 500 ∨ s.algorithmPreference = "original" then
    findShortestPathOriginal s g start endNode
  else
    findShortestPathBidirectional s g start endNode

/-- Duplicate filter of findAllPaths: two paths are duplicates when their
node sequences are identical (payloads are not compared). -/
def isDuplicatePath (paths : List PathResult) (newPath : List String) : Bool :=
  paths.any (fun p => p.path == newPath)

/-- createAltPathGraph: copy the graph and, when the shortest path has more
than 3 nodes, delete the outgoing hop of every odd-indexed interior node
except the final hops (i < length - 2). -/
def createAltPathGraph (g : EnhancedGraph) (sp : List String) : EnhancedGraph :=
  if sp.length > 3 then
    (List.range sp.length).foldl (fun mg i =>
      if 1 ≤ i ∧ i < sp.length - 1 ∧ i % 2 = 1 ∧ i < sp.length - 2 then
        graphDeleteEdge mg (sp.getD i "") (sp.getD (i + 1) "")
      else mg) g
  else g

/-- The DFS of findAlternativePaths.  The neighbor shuffle (Fisher-Yates over
Math.random) is a parameter of the model.  Mutation of the shared visited set
and current path is modelled by passing the extended values to the recursive
call, which is exactly the add/remove and push/pop discipline of the source.
The fuel equals maxPathLength + 2 - currentPath.length along every call
chain; it can only reach 0 with currentPath.length > maxPathLength, where the
length guard returns the accumulator exactly as the fuel-0 branch does. -/
def altDFS (shuffle : List (String × ConnectionInfo) → List (String × ConnectionInfo))
    (g : EnhancedGraph) (endNode : String) (maxPaths maxPathLength : Nat) :
    Nat → String → List String → List ConnectionInfo → List String →
    List PathResult → List PathResult
  | 0, _, _, _, _, paths => paths
  | fuel + 1, currentNode, currentPath, cts, visited, paths =>
    if paths.length ≥ maxPaths ∨ currentPath.length > maxPathLength then paths
    else if currentNode = endNode then
      if isDuplicatePath paths currentPath then paths
      else
        paths ++ [{ distance := (currentPath.length : Int) - 1,
                    path := currentPath, connectionTypes := cts }]
    else
      let visited' := visited ++ [currentNode]
      (shuffle (graphAdj g currentNode)).foldl (fun paths q =>
        if visited'.contains q.1 then paths
        else
          altDFS shuffle g endNode maxPaths maxPathLength fuel q.1
            (currentPath ++ [q.1]) (cts ++ [q.2]) visited' paths) paths

/-- findAllPaths: the shortest path first; if more than one path is wanted,
DFS over the modified graph collects alternatives, and the final array is
sorted ascending by path length (Array.prototype.sort is stable, as is the
insertion sort used here, so equal lengths keep discovery order). -/
def findAllPaths
    (shuffle : List (String × ConnectionInfo) → List (String × ConnectionInfo))
    (s : Settings) (g : EnhancedGraph) (start endNode : String)
    (maxPaths : Nat) : List PathResult :=
  let shortestResult := findShortestPath s g start endNode
  if shortestResult.distance = -1 then []
  else
    let paths := [shortestResult]
    if maxPaths ≤ 1 then paths
    else
      let modifiedGraph := createAltPathGraph g shortestResult.path
      let found := altDFS shuffle modifiedGraph endNode maxPaths s.maxPathLength
        (s.maxPathLength + 2) start [start] [] [start] paths
      found.insertionSort (fun a b => a.path.length ≤ b.path.length)

/-- Pointwise additive update of a value table (pageRank[k] += v). -/
def updAdd (f : String → ℚ) (k : String) (v : ℚ) : String → ℚ :=
  fun x => if x = k then f x + v else f x

/-- One distribution sweep of PageRank: accumulators reset to 0, then every
node with out-edges sends damping * prev/outDegree to each out-neighbor, and
every dangling node sends damping * prev/nodeCount to every node. -/
def prDistribute (g : EnhancedGraph) (nodes : List String) (d : ℚ)
    (prev : String → ℚ) : String → ℚ :=
  g.foldl (fun pr p =>
    if p.2.length > 0 then
      p.2.foldl (fun pr q => updAdd pr q.1 (d * (prev p.1 / (p.2.length : ℚ)))) pr
    else
      nodes.foldl (fun pr n => updAdd pr n (d * (prev p.1 / (nodes.length : ℚ)))) pr)
    (fun _ => 0)

/-- One PageRank iteration: distribution sweep plus the teleportation term
(1 - damping)/N added to every node. -/
def prIter (g : EnhancedGraph) (nodes : List String) (d : ℚ)
    (prev : String → ℚ) : String → ℚ :=
  nodes.foldl (fun pr n => updAdd pr n ((1 - d) / (nodes.length : ℚ)))
    (prDistribute g nodes d prev)

/-- The PageRank power iteration with early exit once the sum of absolute
differences drops below the tolerance. -/
def prLoop (g : EnhancedGraph) (nodes : List String) (d tol : ℚ) :
    Nat → (String → ℚ) → (String → ℚ)
  | 0, pr => pr
  | iter + 1, pr =>
    let next := prIter g nodes d pr
    let diff := (nodes.map (fun n => |next n - pr n|)).sum
    if diff < tol then next else prLoop g nodes d tol iter next

/-- Math.max over a value list (0 for the empty list: the source's -Infinity
also fails the maxRank > 0 test, so normalization is skipped either way). -/
def listMax : List ℚ → ℚ
  | [] => 0
  | x :: xs => xs.foldl max x

/-- calculatePageRank: uniform start 1/N, damped power iteration, then
max-anchored normalization when the maximum is positive.  Faithful to the
source for graphs satisfying the data-model invariant that every edge target
has its own entry (otherwise the source's += on a missing accumulator key
would produce NaN). -/
def calculatePageRank (g : EnhancedGraph) (d : ℚ := 85 / 100)
    (iterations : Nat := 50) (tol : ℚ := 1 / 10000) : String → ℚ :=
  let nodes := g.map Prod.fst
  let final := prLoop g nodes d tol iterations (fun _ => 1 / (nodes.length : ℚ))
  let maxRank := listMax (nodes.map final)
  if 0 < maxRank then
    nodes.foldl (fun pr n => fun x => if x = n then pr x / maxRank else pr x) final
  else final

/-- [...new Set(list)]: deduplicate keeping first occurrences. -/
def jsSetDedup (seen : List String) : List String → List String
  | [] => []
  | x :: xs =>
    if seen.contains x then jsSetDedup seen xs
    else x :: jsSetDedup (seen ++ [x]) xs

/-- getNeighbors: outgoing edge targets, then every other node holding an
edge to this node, deduplicated. -/
def getNeighbors (g : EnhancedGraph) (node : String) : List String :=
  let outgoing := (graphAdj g node).map Prod.fst
  let incoming := g.filterMap (fun p =>
    if p.1 ≠ node ∧ (lookupM p.2 node).isSome then some p.1 else none)
  jsSetDedup [] (outgoing ++ incoming)

/-- hasConnection: an edge in either direction between the two nodes. -/
def hasConnection (g : EnhancedGraph) (a b : String) : Bool :=
  mapHas (graphAdj g a) b || mapHas (graphAdj g b) a

/-- The nested i < j loop counting connected neighbor pairs. -/
def countConnections (g : EnhancedGraph) : List String → Nat
  | [] => 0
  | x :: xs => (xs.filter (fun y => hasConnection g x y)).length + countConnections g xs

/-- Math.round: round half away from zero is JS semantics only for positive
arguments; JS rounds half toward +Infinity, i.e. floor(q + 1/2). -/
def jsRound (q : ℚ) : ℤ := ⌊q + 1 / 2⌋

/-- The clustering coefficient of one path node: 0 with fewer than 2
neighbors; otherwise the connected fraction of neighbor pairs, with the
examined neighbors capped at 15 and the count rescaled by the inverse square
of the sampling ratio when the cap applies. -/
def clusteringOf (g : EnhancedGraph) (node : String) : ℚ :=
  let neighbors := getNeighbors g node
  if neighbors.length < 2 then 0
  else
    let possibleConnections : ℚ :=
      ((neighbors.length : ℚ) * ((neighbors.length : ℚ) - 1)) / 2
    let neighborsToCheck :=
      if neighbors.length > 15 then neighbors.take 15 else neighbors
    let connections := countConnections g neighborsToCheck
    let connections2 : ℚ :=
      if neighbors.length > 15 then
        let samplingRatio : ℚ := (neighborsToCheck.length : ℚ) / (neighbors.length : ℚ)
        ((jsRound ((connections : ℚ) / (samplingRatio * samplingRatio))) : ℚ)
      else (connections : ℚ)
    if possibleConnections > 0 then connections2 / possibleConnections else 0

/-- calculateClusteringCoefficient: the per-node result record over the path
(batching only splits the traversal; every path node is processed in order,
and duplicates overwrite with the same value).  The cancellation flag is
modelled as unset. -/
def calculateClusteringCoefficient (g : EnhancedGraph) (path : List String) :
    String → Option ℚ :=
  if path = [] then fun _ => none
  else
    path.foldl (fun r node => fun x =>
      if x = node then some (clusteringOf g node) else r x)
      (fun _ => none)

/-! ### Generic fold and association-list lemmas -/

theorem foldl_keep {α β : Type} {P : β → Prop} (f : β → α → β) (l : List α) (b : β)
    (h0 : P b) (hstep : ∀ b' a, a ∈ l → P b' → P (f b' a)) : P (l.foldl f b) := by
  induction l generalizing b with
  | nil => exact h0
  | cons a t ih =>
    exact ih _ (hstep b a (List.mem_cons_self a t) h0)
      (fun b' a' ha' => hstep b' a' (List.mem_cons_of_mem _ ha'))

theorem foldl_estab {α β : Type} {f : β → α → β} {P Q : β → Prop} {x : α} :
    ∀ (l : List α), x ∈ l →
    (∀ b a, a ∈ l → P b → P (f b a)) →
    (∀ b a, a ∈ l → Q b → Q (f b a) ∨ P (f b a)) →
    (∀ b, Q b → P (f b x)) →
    ∀ b, Q b ∨ P b → P (l.foldl f b) := by
  intro l
  induction l with
  | nil => intro hx; cases hx
  | cons a t ih =>
    intro hx hP hQ est b h
    have hPt : ∀ b' a', a' ∈ t → P b' → P (f b' a') :=
      fun b' a' ha' => hP b' a' (List.mem_cons_of_mem _ ha')
    have hQt : ∀ b' a', a' ∈ t → Q b' → Q (f b' a') ∨ P (f b' a') :=
      fun b' a' ha' => hQ b' a' (List.mem_cons_of_mem _ ha')
    rcases h with hqb | hpb
    · rcases List.mem_cons.mp hx with hx1 | hx2
      · subst hx1
        exact foldl_keep f t (f b x) (est b hqb) hPt
      · rcases hQ b a (List.mem_cons_self a t) hqb with hq | hp
        · exact ih hx2 hPt hQt est (f b a) (Or.inl hq)
        · exact foldl_keep f t (f b a) hp hPt
    · exact foldl_keep f t (f b a) (hP b a (List.mem_cons_self a t) hpb) hPt

theorem foldl_lookup_congr {α : Type} (f : EnhancedGraph → α → EnhancedGraph) (l : List α)
    (x : String) (h : ∀ b a, a ∈ l → lookupM (f b a) x = lookupM b x) :
    ∀ b, lookupM (l.foldl f b) x = lookupM b x := by
  induction l with
  | nil => intro b; rfl
  | cons a t ih =>
    intro b
    rw [List.foldl_cons, ih (fun b' a' ha' => h b' a' (List.mem_cons_of_mem _ ha')),
      h b a (List.mem_cons_self a t)]

theorem foldl_isSome_congr {α : Type} (f : EnhancedGraph → α → EnhancedGraph) (l : List α)
    (x : String)
    (h : ∀ b a, a ∈ l → (lookupM (f b a) x).isSome = (lookupM b x).isSome) :
    ∀ b, (lookupM (l.foldl f b) x).isSome = (lookupM b x).isSome := by
  induction l with
  | nil => intro b; rfl
  | cons a t ih =>
    intro b
    rw [List.foldl_cons, ih (fun b' a' ha' => h b' a' (List.mem_cons_of_mem _ ha')),
      h b a (List.mem_cons_self a t)]

theorem lookupM_mapSet {α : Type} (m : List (String × α)) (k x : String) (v : α) :
    lookupM (mapSet m k v) x = if k = x then some v else lookupM m x := by
  induction m with
  | nil => simp [mapSet, lookupM]
  | cons p rest ih =>
    obtain ⟨k', v'⟩ := p
    by_cases hk : k' = k
    · subst hk
      by_cases hx : k' = x <;> simp [mapSet, lookupM, hx]
    · by_cases hx : k' = x
      · subst hx
        have : ¬ (k = k') := fun h => hk h.symm
        simp [mapSet, lookupM, hk, this]
      · simp [mapSet, lookupM, hk, hx, ih]

theorem lookupM_isSome_iff_mem {α : Type} (m : List (String × α)) (x : String) :
    (lookupM m x).isSome = true ↔ x ∈ m.map Prod.fst := by
  induction m with
  | nil => simp [lookupM]
  | cons p rest ih =>
    obtain ⟨k, v⟩ := p
    by_cases h : k = x
    · subst h; simp [lookupM]
    · simp [lookupM, h, ih, Ne.symm h]

theorem mem_of_lookupM_eq_some {α : Type} {m : List (String × α)} {x : String} {v : α}
    (h : lookupM m x = some v) : (x, v) ∈ m := by
  induction m with
  | nil => simp [lookupM] at h
  | cons p rest ih =>
    obtain ⟨k, w⟩ := p
    by_cases hk : k = x
    · subst hk
      simp [lookupM] at h
      simp [h]
    · simp [lookupM, hk] at h
      exact List.mem_cons_of_mem _ (ih h)

theorem mem_mapSet {α : Type} {m : List (String × α)} {k : String} {v : α} {p : String × α}
    (h : p ∈ mapSet m k v) : p = (k, v) ∨ p ∈ m := by
  induction m with
  | nil => simpa [mapSet] using h
  | cons q rest ih =>
    obtain ⟨k', v'⟩ := q
    by_cases hk : k' = k
    · subst hk
      simp only [mapSet, if_pos rfl] at h
      rcases List.mem_cons.mp h with h1 | h1
      · exact Or.inl h1
      · exact Or.inr (List.mem_cons_of_mem _ h1)
    · simp only [mapSet, if_neg hk] at h
      rcases List.mem_cons.mp h with h1 | h1
      · exact Or.inr (by simp [h1])
      · rcases ih h1 with h2 | h2
        · exact Or.inl h2
        · exact Or.inr (List.mem_cons_of_mem _ h2)

/-! ### Lemmas about graphSetEdge -/

/-- The stored payload of an edge: graph[a] followed by a Map read of b. -/
def edgeOf (g : EnhancedGraph) (a b : String) : Option ConnectionInfo :=
  lookupM (graphAdj g a) b

theorem lookupM_graphSetEdge_ne (g : EnhancedGraph) (src tgt x : String)
    (i : ConnectionInfo) (hx : x ≠ src) :
    lookupM (graphSetEdge g src tgt i) x = lookupM g x := by
  unfold graphSetEdge
  cases h : lookupM g src with
  | none => rfl
  | some adj => rw [lookupM_mapSet, if_neg (Ne.symm hx)]

theorem isSome_lookupM_graphSetEdge (g : EnhancedGraph) (src tgt x : String)
    (i : ConnectionInfo) :
    (lookupM (graphSetEdge g src tgt i) x).isSome = (lookupM g x).isSome := by
  unfold graphSetEdge
  cases h : lookupM g src with
  | none => rfl
  | some adj =>
    rw [lookupM_mapSet]
    by_cases hx : src = x
    · subst hx; simp [h]
    · simp [hx]

theorem graphAdj_graphSetEdge_ne (g : EnhancedGraph) (src tgt x : String)
    (i : ConnectionInfo) (hx : x ≠ src) :
    graphAdj (graphSetEdge g src tgt i) x = graphAdj g x := by
  unfold graphAdj
  rw [lookupM_graphSetEdge_ne g src tgt x i hx]

theorem edgeOf_graphSetEdge (g : EnhancedGraph) (src tgt : String) (i : ConnectionInfo)
    (a b : String) :
    edgeOf (graphSetEdge g src tgt i) a b =
      if a = src ∧ b = tgt ∧ (lookupM g src).isSome = true then some i
      else edgeOf g a b := by
  by_cases ha : a = src
  · subst ha
    unfold edgeOf graphSetEdge graphAdj
    cases h : lookupM g a with
    | none => simp [h]
    | some adj =>
      rw [lookupM_mapSet]
      simp only [if_pos rfl, h, Option.isSome_some, Option.getD_some, and_true]
      by_cases hb : b = tgt
      · subst hb; simp [lookupM_mapSet]
      · have hb' : tgt ≠ b := fun h' => hb (Eq.symm h')
        simp [hb, lookupM_mapSet, if_neg hb']
  · unfold edgeOf
    rw [graphAdj_graphSetEdge_ne g src tgt a i ha]
    simp [ha]

/-! ### Concrete fixtures for the evaluations and witnesses -/

def edgeD : ConnectionInfo := { type := .direct }

def pathGraphABC : EnhancedGraph :=
  [("A", [("B", edgeD)]), ("B", [("C", edgeD)]), ("C", [])]

def branchGraph : EnhancedGraph :=
  [("A", [("X", edgeD), ("Y", edgeD)]), ("X", [("M", edgeD)]), ("Y", []),
   ("M", [("C", edgeD)]), ("C", [])]

def settingsLen2 : Settings := { maxPathLength := 2 }

def settingsDefault : Settings := {}

def fileA : VaultFile := { path := "A.md", basename := "A" }

def fileB : VaultFile := { path := "B.md", basename := "B" }

def vaultNoLinks : Vault :=
  { files := [fileA, fileB], wikiLinks := fun _ => [], embedLinks := fun _ => [],
    tags := fun _ => [], readOk := fun _ => true }

def vaultAtoB : Vault :=
  { vaultNoLinks with wikiLinks := fun p => if p = "A.md" then ["B"] else [] }

def gStale : EnhancedGraph := [("A.md", [("B.md", edgeD)]), ("B.md", [])]

def gOnlyA : EnhancedGraph := [("A.md", [])]

def edgeDMetaB : ConnectionInfo :=
  { type := .direct,
    metadata := some { title := some "B", tags := some [], excerpt := none } }

def gOnlyAMod : EnhancedGraph := [("A.md", [("B.md", edgeDMetaB)])]

def pairGraph : EnhancedGraph := [("a", [("b", edgeD)]), ("b", [])]

/-! ### C1: connection-type sequence length under both strategies -/

/-- C1.  The claim states that whenever a route is found, connectionTypes has
length path.length - 1 under both strategies.  The code violates this: on the
graph A→X, A→Y, X→M, M→C the bidirectional search meets at X with a backward
half of length 2, and the reconstruction skips the payload of the final hop
into the end node (the push is guarded by current !== end after stepping to
the predecessor), returning a 4-node path with only 2 connection payloads.
The single-source strategy returns all 3 payloads on the same input. -/
theorem C1_bidirectional_drops_final_backward_payload :
    (findShortestPathBidirectional settingsDefault branchGraph "A" "C").distance = 3 ∧
    (findShortestPathBidirectional settingsDefault branchGraph "A" "C").path =
      ["A", "X", "M", "C"] ∧
    (findShortestPathBidirectional settingsDefault branchGraph "A" "C").connectionTypes.length = 2 ∧
    (findShortestPathOriginal settingsDefault branchGraph "A" "C").connectionTypes.length = 3 := by
  decide

/-! ### C2: agreement of the two strategies -/

/-- C2.  The claim states the two strategies return the same distance on
identical inputs.  They do not: with maxPathLength = 2 on the chain A→B→C,
the single-source BFS dequeues the end node at distance 2 but the distance
bound is tested before the endpoint test, so it reports no route (-1), while
the bidirectional search (which only bounds each half by maxPathLength)
reports distance 2. -/
theorem C2_strategies_disagree :
    (findShortestPathOriginal settingsLen2 pathGraphABC "A" "C") =
      { distance := -1, path := [], connectionTypes := [] } ∧
    (findShortestPathBidirectional settingsLen2 pathGraphABC "A" "C").distance = 2 := by
  decide

/-! ### C3: modify must overwrite the document's adjacency -/

/-- C3.  The claim states that after updateGraphCache(document, modify) the
document's adjacency equals the fresh single-document extraction, old edges
not rediscovered being gone.  The code only re-runs processFile on the cached
graph without clearing the entry first (unlike the create branch, which
resets it to an empty Map), so a stale edge survives: here A.md's text has no
references left, yet the cached edge A.md→B.md is still present after the
modify update. -/
theorem C3_modify_keeps_stale_edge :
    vaultNoLinks.wikiLinks "A.md" = [] ∧
    vaultNoLinks.embedLinks "A.md" = [] ∧
    updateGraphCache vaultNoLinks settingsDefault (some gStale) fileA ChangeKind.modify =
      some gStale ∧
    edgeOf gStale "A.md" "B.md" = some edgeD := by
  decide

/-! ### C5: missing endpoints -/

/-- C5 counterexample.  The claim quantifies over every pair of endpoints,
but start === end is tested before the membership test, so equal endpoints
absent from the graph still yield distance 0 with path [start]. -/
theorem C5_counterexample :
    lookupM ([] : EnhancedGraph) "a" = none ∧
    findShortestPath settingsDefault [] "a" "a" =
      { distance := 0, path := ["a"], connectionTypes := [] } := by
  decide

/-- C5 as amended: for distinct endpoints, if either endpoint has no entry in
the graph, findShortestPath returns distance -1 with empty path and empty
connectionTypes. -/
theorem C5_missing_endpoint_no_route (s : Settings) (g : EnhancedGraph)
    (a b : String) (hne : a ≠ b)
    (hmiss : lookupM g a = none ∨ lookupM g b = none) :
    findShortestPath s g a b =
      { distance := -1, path := [], connectionTypes := [] } := by
  unfold findShortestPath
  rw [if_neg hne, if_pos]
  rcases hmiss with h | h <;> simp [h]

theorem C5_missing_endpoint_no_route_witness :
    ("a" ≠ "b" ∧ (lookupM ([] : EnhancedGraph) "a" = none ∨
      lookupM ([] : EnhancedGraph) "b" = none)) ∧
    findShortestPath settingsDefault [] "a" "b" =
      { distance := -1, path := [], connectionTypes := [] } :=
  ⟨⟨by decide, by decide⟩,
   C5_missing_endpoint_no_route settingsDefault [] "a" "b" (by decide) (Or.inl (by decide))⟩

/-! ### C9: clustering coefficient of under-connected path nodes -/

theorem clusterFold_mem (g : EnhancedGraph) (node : String) :
    ∀ (l : List String) (r : String → Option ℚ),
      (node ∈ l ∨ r node = some (clusteringOf g node)) →
      (l.foldl (fun r n => fun x =>
        if x = n then some (clusteringOf g n) else r x) r) node =
        some (clusteringOf g node) := by
  intro l
  induction l with
  | nil =>
    intro r h
    rcases h with h | h
    · cases h
    · exact h
  | cons a t ih =>
    intro r h
    rw [List.foldl_cons]
    apply ih
    by_cases ha : node = a
    · subst ha; right; simp
    · rcases h with h | h
      · rcases List.mem_cons.mp h with h' | h'
        · exact absurd h' ha
        · exact Or.inl h'
      · right; simpa [ha] using h

theorem clusteringOf_small (g : EnhancedGraph) (node : String)
    (hn : (getNeighbors g node).length < 2) : clusteringOf g node = 0 := by
  unfold clusteringOf
  simp only [if_pos hn]

/-- C9.  Every path node whose neighbor set (outgoing targets united with
incoming sources) has fewer than 2 elements is scored exactly 0 by
calculateClusteringCoefficient. -/
theorem C9_clustering_zero_below_two_neighbors (g : EnhancedGraph)
    (path : List String) (node : String) (hmem : node ∈ path)
    (hn : (getNeighbors g node).length < 2) :
    calculateClusteringCoefficient g path node = some 0 := by
  have hpath : ¬ path = [] := by
    intro h; subst h; cases hmem
  unfold calculateClusteringCoefficient
  rw [if_neg hpath, clusterFold_mem g node path _ (Or.inl hmem),
    clusteringOf_small g node hn]

theorem C9_clustering_zero_below_two_neighbors_witness :
    ("A.md" ∈ ["A.md", "B.md"] ∧ (getNeighbors gStale "A.md").length < 2) ∧
    calculateClusteringCoefficient gStale ["A.md", "B.md"] "A.md" = some 0 :=
  ⟨⟨by decide, by decide⟩,
   C9_clustering_zero_below_two_neighbors gStale ["A.md", "B.md"] "A.md"
     (by decide) (by decide)⟩

/-! ### C10: modify touches only the changed document's entry -/

theorem processFile_lookup_ne (v : Vault) (s : Settings) (f : VaultFile)
    (g : EnhancedGraph) (x : String) (hx : x ≠ f.path) :
    lookupM (processFile v s f g) x = lookupM g x := by
  have hset : ∀ (b : EnhancedGraph) (tgt : String) (i : ConnectionInfo),
      lookupM (graphSetEdge b f.path tgt i) x = lookupM b x :=
    fun b tgt i => lookupM_graphSetEdge_ne b f.path tgt x i hx
  have h1 : ∀ (b : EnhancedGraph) (linkText : String),
      lookupM
        (if linkText ≠ "" then
          match findNoteByName v linkText with
          | some lf =>
            graphSetEdge b f.path lf.path
              { type := .direct, metadata := some (getFileMetadata v lf) }
          | none => b
        else b) x = lookupM b x := by
    intro b linkText
    split
    · cases findNoteByName v linkText with
      | some lf => exact hset b lf.path _
      | none => rfl
    · rfl
  have h2 : ∀ (b : EnhancedGraph) (linkText : String),
      lookupM
        (if linkText ≠ "" then
          match findNoteByName v linkText with
          | some lf =>
            graphSetEdge b f.path lf.path
              { type := .embedded, metadata := some (getFileMetadata v lf) }
          | none => b
        else b) x = lookupM b x := by
    intro b linkText
    split
    · cases findNoteByName v linkText with
      | some lf => exact hset b lf.path _
      | none => rfl
    · rfl
  have hF1 := foldl_lookup_congr _ (v.wikiLinks f.path) x (fun b a _ => h1 b a)
  have hF2 := foldl_lookup_congr _ (v.embedLinks f.path) x (fun b a _ => h2 b a)
  have hF3 : ∀ (l : List (VaultFile × List String)) (b : EnhancedGraph),
      lookupM (l.foldl (fun g oc => graphSetEdge g f.path oc.1.path
        { type := ConnectionType.tag, commonTags := some oc.2,
          metadata := some (getFileMetadata v oc.1) }) b) x = lookupM b x :=
    fun l => foldl_lookup_congr _ l x
      (fun b (a : VaultFile × List String) _ => hset b a.1.path _)
  unfold processFile
  split
  · rfl
  · split
    · rfl
    · simp only [apply_ite (fun g => lookupM g x), hF1, hF2, hF3, ite_self]

/-- C10.  updateGraphCache(document, modify) changes at most the modified
document's own entry: the lookup of every other node is unchanged. -/
theorem C10_modify_frame (v : Vault) (s : Settings) (g g' : EnhancedGraph)
    (f : VaultFile)
    (h : updateGraphCache v s (some g) f ChangeKind.modify = some g')
    (x : String) (hx : x ≠ f.path) : lookupM g' x = lookupM g x := by
  have hred : updateGraphCache v s (some g) f ChangeKind.modify =
      (if ¬ s.cacheGraphStructure then some g else some (processFile v s f g)) := rfl
  rw [hred] at h
  by_cases hc : ¬ s.cacheGraphStructure
  · rw [if_pos hc] at h
    cases h
    rfl
  · rw [if_neg hc] at h
    cases h
    exact processFile_lookup_ne v s f g x hx

theorem C10_modify_frame_witness :
    (updateGraphCache vaultAtoB settingsDefault (some gOnlyA) fileA ChangeKind.modify =
      some gOnlyAMod ∧ "B.md" ≠ "A.md") ∧
    lookupM gOnlyAMod "B.md" = lookupM gOnlyA "B.md" :=
  ⟨⟨by decide, by decide⟩,
   C10_modify_frame vaultAtoB settingsDefault gOnlyA gOnlyAMod fileA
     (by decide) "B.md" (by decide)⟩

/-! ### C6: findAllPaths result count and ordering -/

theorem altDFS_length_le
    (shuffle : List (String × ConnectionInfo) → List (String × ConnectionInfo))
    (g : EnhancedGraph) (endNode : String) (maxPaths maxPathLength : Nat) :
    ∀ (fuel : Nat) (node : String) (cp : List String) (cts : List ConnectionInfo)
      (vis : List String) (paths : List PathResult),
      (altDFS shuffle g endNode maxPaths maxPathLength fuel node cp cts vis paths).length ≤
        max paths.length maxPaths := by
  intro fuel
  induction fuel with
  | zero =>
    intro node cp cts vis paths
    simp only [altDFS]
    exact le_max_left _ _
  | succ n ih =>
    intro node cp cts vis paths
    unfold altDFS
    split
    · exact le_max_left _ _
    · split
      · split
        · exact le_max_left _ _
        · rename_i hguard _ _
          have hlt : paths.length < maxPaths := by
            rcases Nat.lt_or_ge paths.length maxPaths with h | h
            · exact h
            · exact absurd (Or.inl h) hguard
          simp only [List.length_append, List.length_singleton]
          omega
      · apply foldl_keep
          (P := fun ps : List PathResult => ps.length ≤ max paths.length maxPaths)
        · exact le_max_left _ _
        · intro b a _ hb
          split
          · exact hb
          · calc (altDFS shuffle g endNode maxPaths maxPathLength n a.1
                (cp ++ [a.1]) (cts ++ [a.2]) (vis ++ [node]) b).length ≤
                  max b.length maxPaths := ih _ _ _ _ _
              _ ≤ max (max paths.length maxPaths) maxPaths := by
                  exact max_le_max_right _ hb
              _ = max paths.length maxPaths := by omega

instance pathLenRelTotal :
    IsTotal PathResult (fun p q => p.path.length ≤ q.path.length) :=
  ⟨fun a b => Nat.le_total a.path.length b.path.length⟩

instance pathLenRelTrans :
    IsTrans PathResult (fun p q => p.path.length ≤ q.path.length) :=
  ⟨fun _ _ _ => Nat.le_trans⟩

/-- C6 as amended: findAllPaths returns at most max(maxPaths, 1) results
(maxPaths values below 1 still return the single shortest result), sorted
ascending by path length, so a returned path of minimal length comes first.
This holds for every neighbor shuffle. -/
theorem C6_sorted_and_bounded
    (shuffle : List (String × ConnectionInfo) → List (String × ConnectionInfo))
    (s : Settings) (g : EnhancedGraph) (start endNode : String) (maxPaths : Nat) :
    (findAllPaths shuffle s g start endNode maxPaths).length ≤ max maxPaths 1 ∧
    List.Sorted (fun p q => p.path.length ≤ q.path.length)
      (findAllPaths shuffle s g start endNode maxPaths) := by
  unfold findAllPaths
  by_cases hd : (findShortestPath s g start endNode).distance = -1
  · simp [hd, List.Sorted]
  · by_cases hm : maxPaths ≤ 1
    · simp only [hd, if_false, hm, if_true]
      constructor
      · simp [le_max_right maxPaths 1]
      · simp [List.Sorted]
    · simp only [hd, if_false, hm, if_true]
      constructor
      · have hdfs := altDFS_length_le shuffle
          (createAltPathGraph g (findShortestPath s g start endNode).path)
          endNode maxPaths s.maxPathLength (s.maxPathLength + 2) start [start] [] [start]
          [findShortestPath s g start endNode]
        have hperm := (List.perm_insertionSort
          (fun p q : PathResult => p.path.length ≤ q.path.length)
          (altDFS shuffle (createAltPathGraph g (findShortestPath s g start endNode).path)
            endNode maxPaths s.maxPathLength (s.maxPathLength + 2) start [start] [] [start]
            [findShortestPath s g start endNode])).length_eq
        rw [hperm]
        simp only [List.length_singleton] at hdfs
        omega
      · exact List.sorted_insertionSort _ _

/-- C6 counterexample.  The claim bounds the result count by maxPaths for
every maxPaths, but the maxPaths <= 1 early return still returns the one
shortest result, so maxPaths = 0 yields 1 > 0 results. -/
theorem C6_counterexample :
    (findAllPaths id settingsDefault pairGraph "a" "b" 0).length = 1 := by
  decide

/-! ### C4: every edge target has its own entry -/

/-- Boolean form of the data-model closure invariant: every edge target has
its own entry in the outer mapping (sources are outer keys by construction,
so they always have one). -/
def graphClosed (g : EnhancedGraph) : Bool :=
  g.all (fun p => p.2.all (fun q => (lookupM g q.1).isSome))

def ClosedP (g : EnhancedGraph) : Prop :=
  ∀ p ∈ g, ∀ q ∈ p.2, (lookupM g q.1).isSome = true

theorem graphClosed_iff (g : EnhancedGraph) : graphClosed g = true ↔ ClosedP g := by
  simp [graphClosed, ClosedP, List.all_eq_true]

theorem ClosedP_graphSetEdge (g : EnhancedGraph) (src tgt : String)
    (i : ConnectionInfo) (hg : ClosedP g) (ht : (lookupM g tgt).isSome = true) :
    ClosedP (graphSetEdge g src tgt i) := by
  intro p hp q hq
  rw [isSome_lookupM_graphSetEdge]
  unfold graphSetEdge at hp
  cases h : lookupM g src with
  | none => simp only [h] at hp; exact hg p hp q hq
  | some adj =>
    simp only [h] at hp
    rcases mem_mapSet hp with h1 | h1
    · subst h1
      rcases mem_mapSet hq with h2 | h2
      · subst h2; exact ht
      · exact hg (src, adj) (mem_of_lookupM_eq_some h) q h2
    · exact hg p h1 q hq

/-- Every current vault document has an entry in the graph. -/
def FilesKeyed (v : Vault) (g : EnhancedGraph) : Prop :=
  ∀ file ∈ v.files, (lookupM g file.path).isSome = true

theorem findNoteByName_mem {v : Vault} {name : String} {lf : VaultFile}
    (h : findNoteByName v name = some lf) : lf ∈ v.files := by
  unfold findNoteByName at h
  cases h1 : v.files.find? (fun f => f.basename == name) with
  | some f =>
    simp only [h1] at h
    cases h
    exact List.mem_of_find?_eq_some h1
  | none =>
    simp only [h1] at h
    cases h2 : v.files.find? (fun f => f.basename.toLower == name.toLower) with
    | some f =>
      simp only [h2] at h
      cases h
      exact List.mem_of_find?_eq_some h2
    | none =>
      simp only [h2] at h
      exact List.mem_of_find?_eq_some h

theorem mem_tagMatches {v : Vault} {fileTags : List String} {fp : String}
    {oc : VaultFile × List String}
    (h : oc ∈ v.files.filterMap (fun of =>
      if of.path ≠ fp then
        let otherTags := v.tags of.path
        if otherTags ≠ [] then
          let commonTags := fileTags.filter (fun t => otherTags.contains t)
          if commonTags ≠ [] then some (of, commonTags) else none
        else none
      else none)) : oc.1 ∈ v.files := by
  rcases List.mem_filterMap.mp h with ⟨a, ha, hfa⟩
  dsimp only at hfa
  split at hfa
  · split at hfa
    · split at hfa
      · cases hfa; simpa using ha
      · cases hfa
    · cases hfa
  · cases hfa

theorem preserved_graphSetEdge (v : Vault) {g : EnhancedGraph} (src : String)
    {tgt : String} (i : ConnectionInfo) (h : ClosedP g ∧ FilesKeyed v g)
    (htf : ∃ file ∈ v.files, file.path = tgt) :
    ClosedP (graphSetEdge g src tgt i) ∧ FilesKeyed v (graphSetEdge g src tgt i) := by
  obtain ⟨file, hfm, hfp⟩ := htf
  have ht : (lookupM g tgt).isSome = true := hfp ▸ h.2 file hfm
  refine ⟨ClosedP_graphSetEdge g src tgt i h.1 ht, fun fl hfl => ?_⟩
  rw [isSome_lookupM_graphSetEdge]
  exact h.2 fl hfl

theorem processFile_preserves (v : Vault) (s : Settings) (f : VaultFile)
    (g : EnhancedGraph) (hg : ClosedP g ∧ FilesKeyed v g) :
    ClosedP (processFile v s f g) ∧ FilesKeyed v (processFile v s f g) := by
  have h1 : ∀ (b : EnhancedGraph) (linkText : String),
      (ClosedP b ∧ FilesKeyed v b) →
      ClosedP (if linkText ≠ "" then
          match findNoteByName v linkText with
          | some lf =>
            graphSetEdge b f.path lf.path
              { type := .direct, metadata := some (getFileMetadata v lf) }
          | none => b
        else b) ∧
      FilesKeyed v (if linkText ≠ "" then
          match findNoteByName v linkText with
          | some lf =>
            graphSetEdge b f.path lf.path
              { type := .direct, metadata := some (getFileMetadata v lf) }
          | none => b
        else b) := by
    intro b linkText hb
    split
    · cases hfind : findNoteByName v linkText with
      | some lf =>
        exact preserved_graphSetEdge v f.path _ hb ⟨lf, findNoteByName_mem hfind, rfl⟩
      | none => exact hb
    · exact hb
  have h2 : ∀ (b : EnhancedGraph) (linkText : String),
      (ClosedP b ∧ FilesKeyed v b) →
      ClosedP (if linkText ≠ "" then
          match findNoteByName v linkText with
          | some lf =>
            graphSetEdge b f.path lf.path
              { type := .embedded, metadata := some (getFileMetadata v lf) }
          | none => b
        else b) ∧
      FilesKeyed v (if linkText ≠ "" then
          match findNoteByName v linkText with
          | some lf =>
            graphSetEdge b f.path lf.path
              { type := .embedded, metadata := some (getFileMetadata v lf) }
          | none => b
        else b) := by
    intro b linkText hb
    split
    · cases hfind : findNoteByName v linkText with
      | some lf =>
        exact preserved_graphSetEdge v f.path _ hb ⟨lf, findNoteByName_mem hfind, rfl⟩
      | none => exact hb
    · exact hb
  unfold processFile
  split
  · exact hg
  · split
    · exact hg
    · dsimp only
      have hW : ∀ (b : EnhancedGraph), (ClosedP b ∧ FilesKeyed v b) →
          ClosedP ((v.wikiLinks f.path).foldl (fun g linkText =>
            if linkText ≠ "" then
              match findNoteByName v linkText with
              | some lf =>
                graphSetEdge g f.path lf.path
                  { type := .direct, metadata := some (getFileMetadata v lf) }
              | none => g
            else g) b) ∧
          FilesKeyed v ((v.wikiLinks f.path).foldl (fun g linkText =>
            if linkText ≠ "" then
              match findNoteByName v linkText with
              | some lf =>
                graphSetEdge g f.path lf.path
                  { type := .direct, metadata := some (getFileMetadata v lf) }
              | none => g
            else g) b) :=
        fun b hb => foldl_keep _ _ b hb (fun b' a _ hb' => h1 b' a hb')
      have hE : ∀ (b : EnhancedGraph), (ClosedP b ∧ FilesKeyed v b) →
          ClosedP ((v.embedLinks f.path).foldl (fun g linkText =>
            if linkText ≠ "" then
              match findNoteByName v linkText with
              | some lf =>
                graphSetEdge g f.path lf.path
                  { type := .embedded, metadata := some (getFileMetadata v lf) }
              | none => g
            else g) b) ∧
          FilesKeyed v ((v.embedLinks f.path).foldl (fun g linkText =>
            if linkText ≠ "" then
              match findNoteByName v linkText with
              | some lf =>
                graphSetEdge g f.path lf.path
                  { type := .embedded, metadata := some (getFileMetadata v lf) }
              | none => g
            else g) b) :=
        fun b hb => foldl_keep _ _ b hb (fun b' a _ hb' => h2 b' a hb')
      split
      · apply foldl_keep (P := fun g' => ClosedP g' ∧ FilesKeyed v g')
        · split
          · exact hE _ (hW g hg)
          · exact hW g hg
        · intro b a ha hb
          apply preserved_graphSetEdge v f.path _ hb
          refine ⟨a.1, ?_, rfl⟩
          have h1' := List.mem_of_mem_take ha
          have h2' := (List.perm_insertionSort
            (fun x y : VaultFile × List String => y.2.length ≤ x.2.length) _).mem_iff.mp h1'
          exact mem_tagMatches h2'
      · split
        · exact hE _ (hW g hg)
        · exact hW g hg

theorem initGraph_adj_empty (v : Vault) : ∀ p ∈ initGraph v, p.2 = ([] : Adj) := by
  unfold initGraph
  apply foldl_keep (P := fun g : EnhancedGraph => ∀ p ∈ g, p.2 = ([] : Adj))
  · intro p hp; cases hp
  · intro b a _ hb p hp
    rcases mem_mapSet hp with h | h
    · rw [h]
    · exact hb p h

theorem initGraph_closed (v : Vault) : ClosedP (initGraph v) := by
  intro p hp q hq
  rw [initGraph_adj_empty v p hp] at hq
  cases hq

theorem lookupM_initGraph_isSome (v : Vault) (x : String) :
    (lookupM (initGraph v) x).isSome = true ↔ ∃ f ∈ v.files, f.path = x := by
  unfold initGraph
  suffices h : ∀ (l : List VaultFile) (g0 : EnhancedGraph),
      (lookupM (l.foldl (fun g f => mapSet g f.path []) g0) x).isSome = true ↔
      (∃ f ∈ l, f.path = x) ∨ (lookupM g0 x).isSome = true by
    rw [h]
    simp [lookupM]
  intro l
  induction l with
  | nil => intro g0; simp
  | cons a t ih =>
    intro g0
    rw [List.foldl_cons, ih]
    by_cases hax : a.path = x
    · simp only [lookupM_mapSet, if_pos hax, Option.isSome_some]
      constructor
      · intro _; exact Or.inl ⟨a, List.mem_cons_self a t, hax⟩
      · intro _; exact Or.inr trivial
    · simp only [lookupM_mapSet, if_neg hax]
      constructor
      · rintro (⟨f0, hf0, hp0⟩ | hr)
        · exact Or.inl ⟨f0, List.mem_cons_of_mem _ hf0, hp0⟩
        · exact Or.inr hr
      · rintro (⟨f0, hf0, hp0⟩ | hr)
        · rcases List.mem_cons.mp hf0 with h | h
          · subst h; exact absurd hp0 hax
          · exact Or.inl ⟨f0, h, hp0⟩
        · exact Or.inr hr

theorem initGraph_filesKeyed (v : Vault) : FilesKeyed v (initGraph v) :=
  fun file hf => (lookupM_initGraph_isSome v file.path).mpr ⟨file, hf, rfl⟩

theorem buildGraphForward_good (v : Vault) (s : Settings) :
    ClosedP (buildGraphForward v s) ∧ FilesKeyed v (buildGraphForward v s) := by
  unfold buildGraphForward
  apply foldl_keep (P := fun g => ClosedP g ∧ FilesKeyed v g)
  · exact ⟨initGraph_closed v, initGraph_filesKeyed v⟩
  · intro b a _ hb
    exact processFile_preserves v s a b hb

theorem backlinkEdgeStep_closed (v : Vault) (source : String) (g : EnhancedGraph)
    (te : String × ConnectionInfo) (hg : ClosedP g)
    (hsrc : (lookupM g source).isSome = true) :
    ClosedP (backlinkEdgeStep v source g te) := by
  unfold backlinkEdgeStep
  split
  · exact hg
  · cases v.files.find? (fun fl => fl.path == source) with
    | some sf => exact ClosedP_graphSetEdge g te.1 source _ hg hsrc
    | none => exact hg

theorem isSome_backlinkEdgeStep (v : Vault) (source : String) (g : EnhancedGraph)
    (te : String × ConnectionInfo) (x : String) :
    (lookupM (backlinkEdgeStep v source g te) x).isSome = (lookupM g x).isSome := by
  unfold backlinkEdgeStep
  split
  · rfl
  · cases v.files.find? (fun fl => fl.path == source) with
    | some sf => exact isSome_lookupM_graphSetEdge g te.1 source x _
    | none => rfl

theorem isSome_backlinkKeyStep (v : Vault) (g : EnhancedGraph) (source x : String) :
    (lookupM (backlinkKeyStep v g source) x).isSome = (lookupM g x).isSome := by
  unfold backlinkKeyStep
  exact foldl_isSome_congr _ _ x (fun b a _ => isSome_backlinkEdgeStep v source b a x) g

theorem backlinkKeyStep_closed (v : Vault) (g : EnhancedGraph) (source : String)
    (hg : ClosedP g) (hsrc : (lookupM g source).isSome = true) :
    ClosedP (backlinkKeyStep v g source) := by
  unfold backlinkKeyStep
  have h := foldl_keep
    (P := fun g' => ClosedP g' ∧ (lookupM g' source).isSome = true)
    (backlinkEdgeStep v source) (graphAdj g source) g ⟨hg, hsrc⟩
    (fun b a _ hb => ⟨backlinkEdgeStep_closed v source b a hb.1 hb.2,
      by rw [isSome_backlinkEdgeStep]; exact hb.2⟩)
  exact h.1

theorem processBacklinks_closed (v : Vault) (g0 : EnhancedGraph) (hg : ClosedP g0) :
    ClosedP (processBacklinks v g0) := by
  unfold processBacklinks
  have h := foldl_keep
    (P := fun g' => ClosedP g' ∧
      ∀ k ∈ g0.map Prod.fst, (lookupM g' k).isSome = true)
    (backlinkKeyStep v) (g0.map Prod.fst) g0
    ⟨hg, fun k hk => (lookupM_isSome_iff_mem g0 k).mpr hk⟩
    (fun b src hsrc hb =>
      ⟨backlinkKeyStep_closed v b src hb.1 (hb.2 src hsrc),
       fun k hk => by rw [isSome_backlinkKeyStep]; exact hb.2 k hk⟩)
  exact h.1

theorem lookupM_stripNode (g : EnhancedGraph) (p x : String) :
    lookupM (stripNode g p) x =
      if x = p then none
      else (lookupM g x).map (fun adj => adj.filter (fun q => q.1 != p)) := by
  induction g with
  | nil => simp [stripNode, lookupM]
  | cons e rest ih =>
    obtain ⟨k, adj⟩ := e
    by_cases hk : k = p
    · subst hk
      have h1 : stripNode ((k, adj) :: rest) k = stripNode rest k := by
        simp [stripNode, List.filter_cons]
      rw [h1, ih]
      by_cases hx : x = k
      · simp [if_pos hx]
      · have hkx : ¬ (k = x) := fun h => hx h.symm
        simp only [if_neg hx, lookupM, if_neg hkx]
    · have h1 : stripNode ((k, adj) :: rest) p =
          (k, adj.filter (fun q => q.1 != p)) :: stripNode rest p := by
        simp [stripNode, List.filter_cons, bne_iff_ne, hk]
      rw [h1]
      by_cases hkx : k = x
      · subst hkx
        have hxp : ¬ (k = p) := hk
        simp [lookupM, hxp]
      · simp only [lookupM, if_neg hkx, ih]

theorem ClosedP_stripNode (g : EnhancedGraph) (p : String) (hg : ClosedP g) :
    ClosedP (stripNode g p) := by
  intro e he q hq
  unfold stripNode at he
  rcases List.mem_map.mp he with ⟨e0, he0, heq⟩
  have hmem := List.mem_filter.mp he0
  subst heq
  have hq' := List.mem_filter.mp hq
  have hsome := hg e0 hmem.1 q hq'.1
  have hqp : ¬ (q.1 = p) := by simpa [bne_iff_ne] using hq'.2
  rw [lookupM_stripNode, if_neg hqp]
  obtain ⟨a, ha⟩ := Option.isSome_iff_exists.mp hsome
  rw [ha]
  rfl

theorem ClosedP_mapSet_empty (g : EnhancedGraph) (p : String) (hg : ClosedP g) :
    ClosedP (mapSet g p ([] : Adj)) := by
  intro e he q hq
  rcases mem_mapSet he with h | h
  · subst h; cases hq
  · have hsome := hg e h q hq
    rw [lookupM_mapSet]
    by_cases hp : p = q.1 <;> simp [hp, hsome]

theorem filesKeyed_after_create (v : Vault) (g : EnhancedGraph) (f : VaultFile)
    (hk : ∀ file ∈ v.files, file.path = f.path ∨
      (lookupM g file.path).isSome = true) :
    FilesKeyed v (mapSet g f.path ([] : Adj)) := by
  intro file hf
  rw [lookupM_mapSet]
  rcases hk file hf with h | h
  · simp [h]
  · by_cases hp : f.path = file.path <;> simp [hp, h]

/-- C4 as amended: the closure invariant (every edge target has its own
entry; sources are outer keys by construction) holds for every graph returned
by buildGraph and is preserved by updateGraphCache for every change kind,
provided every current vault document either is the changed document or
already has an entry in the cached graph (for modify/create the extraction
can add an edge to any current document; a vault document missing from a
stale cache breaks the invariant, see the counterexample). -/
theorem C4_closure_invariant :
    (∀ (v : Vault) (s : Settings), graphClosed (buildGraph v s) = true) ∧
    (∀ (v : Vault) (s : Settings) (g g' : EnhancedGraph) (f : VaultFile)
      (ck : ChangeKind), graphClosed g = true →
      (∀ file ∈ v.files, file.path = f.path ∨
        (lookupM g file.path).isSome = true) →
      updateGraphCache v s (some g) f ck = some g' →
      graphClosed g' = true) := by
  constructor
  · intro v s
    rw [graphClosed_iff]
    unfold buildGraph
    split
    · exact processBacklinks_closed v _ (buildGraphForward_good v s).1
    · exact (buildGraphForward_good v s).1
  · intro v s g g' f ck hg hk hup
    rw [graphClosed_iff] at hg ⊢
    cases ck with
    | delete =>
      have hred : updateGraphCache v s (some g) f ChangeKind.delete =
          (if ¬ s.cacheGraphStructure then some g
           else some (stripNode g f.path)) := rfl
      rw [hred] at hup
      by_cases hc : ¬ s.cacheGraphStructure
      · rw [if_pos hc] at hup; cases hup; exact hg
      · rw [if_neg hc] at hup; cases hup
        exact ClosedP_stripNode g f.path hg
    | create =>
      have hred : updateGraphCache v s (some g) f ChangeKind.create =
          (if ¬ s.cacheGraphStructure then some g
           else some (processFile v s f (mapSet g f.path []))) := rfl
      rw [hred] at hup
      by_cases hc : ¬ s.cacheGraphStructure
      · rw [if_pos hc] at hup; cases hup; exact hg
      · rw [if_neg hc] at hup; cases hup
        refine (processFile_preserves v s f _ ⟨?_, ?_⟩).1
        · exact ClosedP_mapSet_empty g f.path hg
        · exact filesKeyed_after_create v g f hk
    | modify =>
      have hred : updateGraphCache v s (some g) f ChangeKind.modify =
          (if ¬ s.cacheGraphStructure then some g
           else some (processFile v s f g)) := rfl
      rw [hred] at hup
      by_cases hc : ¬ s.cacheGraphStructure
      · rw [if_pos hc] at hup; cases hup; exact hg
      · rw [if_neg hc] at hup; cases hup
        by_cases hp : (lookupM g f.path).isSome = true
        · refine (processFile_preserves v s f g ⟨hg, ?_⟩).1
          intro file hf
          rcases hk file hf with h | h
          · rw [h]; exact hp
          · exact h
        · have hnone : (lookupM g f.path).isNone = true := by
            cases hl : lookupM g f.path with
            | none => rfl
            | some a => rw [hl] at hp; simp at hp
          have heq : processFile v s f g = g := by
            unfold processFile
            rw [if_pos hnone]
          rw [heq]
          exact hg

theorem C4_closure_invariant_witness :
    (graphClosed gStale = true ∧
      (∀ file ∈ vaultNoLinks.files, file.path = fileA.path ∨
        (lookupM gStale file.path).isSome = true) ∧
      updateGraphCache vaultNoLinks settingsDefault (some gStale) fileA
        ChangeKind.modify = some gStale) ∧
    graphClosed (buildGraph vaultNoLinks settingsDefault) = true ∧
    graphClosed gStale = true :=
  ⟨⟨by decide, by decide, by decide⟩,
   C4_closure_invariant.1 vaultNoLinks settingsDefault,
   C4_closure_invariant.2 vaultNoLinks settingsDefault gStale gStale fileA
     ChangeKind.modify (by decide) (by decide) (by decide)⟩

/-- C4 counterexample.  On a cached graph missing a current vault document,
modify re-extraction adds an edge targeting that document and the target has
no entry afterwards, so the invariant is not preserved unconditionally. -/
theorem C4_counterexample :
    graphClosed gOnlyA = true ∧
    updateGraphCache vaultAtoB settingsDefault (some gOnlyA) fileA
      ChangeKind.modify = some gOnlyAMod ∧
    graphClosed gOnlyAMod = false := by
  decide

/-! ### C8: PageRank non-negativity and max-anchored normalization -/

theorem updAdd_nonneg {f : String → ℚ} {v : ℚ} (hf : ∀ x, 0 ≤ f x) (hv : 0 ≤ v)
    (k : String) : ∀ x, 0 ≤ updAdd f k v x := by
  intro x
  unfold updAdd
  split
  · exact add_nonneg (hf x) hv
  · exact hf x

theorem prDistribute_nonneg (g : EnhancedGraph) (nodes : List String) (d : ℚ)
    (hd : 0 ≤ d) (prev : String → ℚ) (hprev : ∀ x, 0 ≤ prev x) :
    ∀ x, 0 ≤ prDistribute g nodes d prev x := by
  unfold prDistribute
  apply foldl_keep (P := fun pr : String → ℚ => ∀ x, 0 ≤ pr x)
  · intro x; exact le_refl 0
  · intro b p _ hb
    split
    · apply foldl_keep (P := fun pr : String → ℚ => ∀ x, 0 ≤ pr x)
      · exact hb
      · intro b' q _ hb'
        exact updAdd_nonneg hb'
          (mul_nonneg hd (div_nonneg (hprev p.1) (Nat.cast_nonneg _))) q.1
    · apply foldl_keep (P := fun pr : String → ℚ => ∀ x, 0 ≤ pr x)
      · exact hb
      · intro b' n _ hb'
        exact updAdd_nonneg hb'
          (mul_nonneg hd (div_nonneg (hprev p.1) (Nat.cast_nonneg _))) n

theorem prIter_nonneg (g : EnhancedGraph) (nodes : List String) (d : ℚ)
    (hd : 0 ≤ d) (hd1 : d ≤ 1) (prev : String → ℚ) (hprev : ∀ x, 0 ≤ prev x) :
    ∀ x, 0 ≤ prIter g nodes d prev x := by
  unfold prIter
  apply foldl_keep (P := fun pr : String → ℚ => ∀ x, 0 ≤ pr x)
  · exact prDistribute_nonneg g nodes d hd prev hprev
  · intro b n _ hb
    exact updAdd_nonneg hb (div_nonneg (by linarith) (Nat.cast_nonneg _)) n

theorem foldl_updAdd_mono {v : ℚ} (hv : 0 ≤ v) :
    ∀ (l : List String) (f : String → ℚ) (x : String),
      f x ≤ (l.foldl (fun pr k => updAdd pr k v) f) x := by
  intro l
  induction l with
  | nil => intro f x; exact le_refl _
  | cons a t ih =>
    intro f x
    rw [List.foldl_cons]
    refine le_trans ?_ (ih (updAdd f a v) x)
    unfold updAdd
    split
    · linarith
    · exact le_refl _

theorem foldl_updAdd_ge {v : ℚ} (hv : 0 ≤ v) :
    ∀ (l : List String) (f : String → ℚ) (n : String),
      (∀ x, 0 ≤ f x) → n ∈ l →
      v ≤ (l.foldl (fun pr k => updAdd pr k v) f) n := by
  intro l
  induction l with
  | nil => intro f n _ h; cases h
  | cons a t ih =>
    intro f n hf hn
    rw [List.foldl_cons]
    by_cases hna : n = a
    · subst hna
      have h1 : v ≤ updAdd f n v n := by
        unfold updAdd
        rw [if_pos rfl]
        linarith [hf n]
      exact le_trans h1 (foldl_updAdd_mono hv t (updAdd f n v) n)
    · rcases List.mem_cons.mp hn with h | h
      · exact absurd h hna
      · exact ih (updAdd f a v) n (updAdd_nonneg hf hv a) h

theorem prIter_ge_base (g : EnhancedGraph) (nodes : List String) (d : ℚ)
    (hd : 0 ≤ d) (hd1 : d ≤ 1) (prev : String → ℚ) (hprev : ∀ x, 0 ≤ prev x) :
    ∀ n ∈ nodes, (1 - d) / (nodes.length : ℚ) ≤ prIter g nodes d prev n := by
  intro n hn
  unfold prIter
  exact foldl_updAdd_ge (div_nonneg (by linarith) (Nat.cast_nonneg _)) nodes
    (prDistribute g nodes d prev) n (prDistribute_nonneg g nodes d hd prev hprev) hn

theorem prLoop_props (g : EnhancedGraph) (nodes : List String) (d tol : ℚ)
    (hd : 0 ≤ d) (hd1 : d ≤ 1) :
    ∀ (iters : Nat) (prev : String → ℚ), (∀ x, 0 ≤ prev x) →
      (∀ n ∈ nodes, (1 - d) / (nodes.length : ℚ) ≤ prev n) →
      (∀ x, 0 ≤ prLoop g nodes d tol iters prev x) ∧
      (∀ n ∈ nodes, (1 - d) / (nodes.length : ℚ) ≤ prLoop g nodes d tol iters prev n) := by
  intro iters
  induction iters with
  | zero => intro prev h0 hb; exact ⟨h0, hb⟩
  | succ k ih =>
    intro prev h0 hb
    unfold prLoop
    dsimp only
    split
    · exact ⟨prIter_nonneg g nodes d hd hd1 prev h0,
        prIter_ge_base g nodes d hd hd1 prev h0⟩
    · exact ih _ (prIter_nonneg g nodes d hd hd1 prev h0)
        (prIter_ge_base g nodes d hd hd1 prev h0)

theorem init_le_foldl_max : ∀ (t : List ℚ) (a : ℚ), a ≤ t.foldl max a := by
  intro t
  induction t with
  | nil => intro a; exact le_refl a
  | cons b t' ih =>
    intro a
    rw [List.foldl_cons]
    exact le_trans (le_max_left a b) (ih (max a b))

theorem mem_le_foldl_max : ∀ (t : List ℚ) (a x : ℚ), x ∈ t → x ≤ t.foldl max a := by
  intro t
  induction t with
  | nil => intro a x h; cases h
  | cons b t' ih =>
    intro a x h
    rw [List.foldl_cons]
    rcases List.mem_cons.mp h with h1 | h1
    · subst h1
      exact le_trans (le_max_right a x) (init_le_foldl_max t' (max a x))
    · exact ih (max a b) x h1

theorem le_listMax_of_mem {l : List ℚ} {x : ℚ} (h : x ∈ l) : x ≤ listMax l := by
  cases l with
  | nil => cases h
  | cons a t =>
    rcases List.mem_cons.mp h with h1 | h1
    · subst h1; exact init_le_foldl_max t x
    · exact mem_le_foldl_max t a x h1

theorem max_div_pos (a b m : ℚ) (hm : 0 < m) : max (a / m) (b / m) = max a b / m := by
  rcases le_total a b with h | h
  · rw [max_eq_right h, max_eq_right ((div_le_div_iff_of_pos_right hm).mpr h)]
  · rw [max_eq_left h, max_eq_left ((div_le_div_iff_of_pos_right hm).mpr h)]

theorem foldl_max_map_div (m : ℚ) (hm : 0 < m) :
    ∀ (t : List ℚ) (a : ℚ),
      (t.map (fun y => y / m)).foldl max (a / m) = (t.foldl max a) / m := by
  intro t
  induction t with
  | nil => intro a; rfl
  | cons b t' ih =>
    intro a
    rw [List.map_cons, List.foldl_cons, List.foldl_cons, max_div_pos a b m hm, ih]

theorem listMax_map_div (m : ℚ) (hm : 0 < m) (l : List ℚ) :
    listMax (l.map (fun y => y / m)) = listMax l / m := by
  cases l with
  | nil => simp [listMax]
  | cons a t =>
    simp only [List.map_cons, listMax]
    exact foldl_max_map_div m hm t a

theorem foldDiv_untouched (m : ℚ) :
    ∀ (l : List String) (f : String → ℚ) (x : String), x ∉ l →
      (l.foldl (fun pr n => fun y => if y = n then pr y / m else pr y) f) x = f x := by
  intro l
  induction l with
  | nil => intro f x _; rfl
  | cons a t ih =>
    intro f x hx
    rw [List.foldl_cons]
    have hxa : ¬ (x = a) := fun h => hx (h ▸ List.mem_cons_self a t)
    rw [ih _ x (fun h => hx (List.mem_cons_of_mem _ h))]
    simp [hxa]

theorem foldDiv_at (m : ℚ) :
    ∀ (l : List String) (f : String → ℚ) (x : String), l.Nodup → x ∈ l →
      (l.foldl (fun pr n => fun y => if y = n then pr y / m else pr y) f) x =
        f x / m := by
  intro l
  induction l with
  | nil => intro f x _ h; cases h
  | cons a t ih =>
    intro f x hnd hx
    rw [List.foldl_cons]
    rcases List.mem_cons.mp hx with h1 | h1
    · subst h1
      have hnotin : x ∉ t := (List.nodup_cons.mp hnd).1
      rw [foldDiv_untouched m t _ x hnotin]
      simp
    · have hxa : ¬ (x = a) := by
        intro h
        subst h
        exact (List.nodup_cons.mp hnd).1 h1
      rw [ih _ x (List.nodup_cons.mp hnd).2 h1]
      simp [hxa]

theorem calculatePageRank_eq (g : EnhancedGraph) :
    calculatePageRank g =
      (if 0 < listMax ((g.map Prod.fst).map (prLoop g (g.map Prod.fst) (85 / 100)
          (1 / 10000) 50 (fun _ => 1 / ((g.map Prod.fst).length : ℚ)))) then
        (g.map Prod.fst).foldl (fun pr n => fun x =>
          if x = n then
            pr x / listMax ((g.map Prod.fst).map (prLoop g (g.map Prod.fst)
              (85 / 100) (1 / 10000) 50 (fun _ => 1 / ((g.map Prod.fst).length : ℚ))))
          else pr x)
          (prLoop g (g.map Prod.fst) (85 / 100) (1 / 10000) 50
            (fun _ => 1 / ((g.map Prod.fst).length : ℚ)))
      else prLoop g (g.map Prod.fst) (85 / 100) (1 / 10000) 50
        (fun _ => 1 / ((g.map Prod.fst).length : ℚ))) := rfl

/-- C8.  For every non-empty graph of the data model (unique outer keys and
every edge target owning an entry, under which the embedding is faithful to
the source), every value returned by calculatePageRank on a node is
non-negative and the maximum over all nodes is exactly 1.  The teleportation
term makes every pre-normalization value at least (1-d)/N > 0, so the
normalization branch always runs and the not-all-zero proviso of the claim is
automatic. -/
theorem C8_pagerank_nonneg_max_one (g : EnhancedGraph) (hne : g ≠ [])
    (hnd : (g.map Prod.fst).Nodup) (hcl : graphClosed g = true) :
    (∀ n ∈ g.map Prod.fst, 0 ≤ calculatePageRank g (85 / 100) 50 (1 / 10000) n) ∧
    listMax ((g.map Prod.fst).map (calculatePageRank g (85 / 100) 50 (1 / 10000))) = 1 := by
  have hlen : 0 < (g.map Prod.fst).length := by
    cases g with
    | nil => exact absurd rfl hne
    | cons a t => simp
  have hN : 0 < ((g.map Prod.fst).length : ℚ) := by exact_mod_cast hlen
  have hbase : 0 < (1 - (85 : ℚ) / 100) / ((g.map Prod.fst).length : ℚ) :=
    div_pos (by norm_num) hN
  have hinit0 : ∀ x, 0 ≤ (fun _ : String => 1 / ((g.map Prod.fst).length : ℚ)) x :=
    fun x => le_of_lt (div_pos one_pos hN)
  have hinitb : ∀ n ∈ g.map Prod.fst,
      (1 - (85 : ℚ) / 100) / ((g.map Prod.fst).length : ℚ) ≤
        (fun _ : String => 1 / ((g.map Prod.fst).length : ℚ)) n := by
    intro n _
    exact (div_le_div_iff_of_pos_right hN).mpr (by norm_num)
  have hfinal := prLoop_props g (g.map Prod.fst) (85 / 100) (1 / 10000)
    (by norm_num) (by norm_num) 50 _ hinit0 hinitb
  obtain ⟨n0, hn0⟩ := List.exists_mem_of_ne_nil (g.map Prod.fst)
    (by cases g with
        | nil => exact absurd rfl hne
        | cons a t => simp)
  have hmaxpos : 0 < listMax ((g.map Prod.fst).map (prLoop g (g.map Prod.fst)
      (85 / 100) (1 / 10000) 50 (fun _ => 1 / ((g.map Prod.fst).length : ℚ)))) := by
    refine lt_of_lt_of_le hbase (le_trans (hfinal.2 n0 hn0) ?_)
    exact le_listMax_of_mem (List.mem_map_of_mem _ hn0)
  rw [calculatePageRank_eq, if_pos hmaxpos]
  constructor
  · intro n hn
    rw [foldDiv_at _ _ _ _ hnd hn]
    exact div_nonneg (hfinal.1 n) (le_of_lt hmaxpos)
  · have hmapeq : (g.map Prod.fst).map ((g.map Prod.fst).foldl (fun pr n => fun x =>
        if x = n then
          pr x / listMax ((g.map Prod.fst).map (prLoop g (g.map Prod.fst)
            (85 / 100) (1 / 10000) 50 (fun _ => 1 / ((g.map Prod.fst).length : ℚ))))
        else pr x)
        (prLoop g (g.map Prod.fst) (85 / 100) (1 / 10000) 50
          (fun _ => 1 / ((g.map Prod.fst).length : ℚ)))) =
        ((g.map Prod.fst).map (prLoop g (g.map Prod.fst) (85 / 100) (1 / 10000) 50
          (fun _ => 1 / ((g.map Prod.fst).length : ℚ)))).map
          (fun y => y / listMax ((g.map Prod.fst).map (prLoop g (g.map Prod.fst)
            (85 / 100) (1 / 10000) 50 (fun _ => 1 / ((g.map Prod.fst).length : ℚ))))) := by
      conv_rhs => rw [List.map_map]
      apply List.map_congr_left
      intro n hn
      exact foldDiv_at _ _ _ _ hnd hn
    rw [hmapeq, listMax_map_div _ hmaxpos]
    exact div_self (ne_of_gt hmaxpos)

theorem C8_pagerank_nonneg_max_one_witness :
    (pairGraph ≠ [] ∧ (pairGraph.map Prod.fst).Nodup ∧
      graphClosed pairGraph = true) ∧
    ((∀ n ∈ pairGraph.map Prod.fst,
        0 ≤ calculatePageRank pairGraph (85 / 100) 50 (1 / 10000) n) ∧
     listMax ((pairGraph.map Prod.fst).map
        (calculatePageRank pairGraph (85 / 100) 50 (1 / 10000))) = 1) :=
  ⟨⟨by decide, by decide, by decide⟩,
   C8_pagerank_nonneg_max_one pairGraph (by decide) (by decide) (by decide)⟩

/-! ### C7: the backlink pass -/

theorem foldl_edgeOf_congr {α : Type} (f : EnhancedGraph → α → EnhancedGraph)
    (l : List α) (a b : String)
    (h : ∀ g' x, x ∈ l → edgeOf (f g' x) a b = edgeOf g' a b) :
    ∀ g', edgeOf (l.foldl f g') a b = edgeOf g' a b := by
  induction l with
  | nil => intro g'; rfl
  | cons x t ih =>
    intro g'
    rw [List.foldl_cons, ih (fun g'' y hy => h g'' y (List.mem_cons_of_mem _ hy)),
      h g' x (List.mem_cons_self x t)]

theorem backlinkEdgeStep_edge_mono (v : Vault) (src : String) (g : EnhancedGraph)
    (te : String × ConnectionInfo) (a b : String) (i : ConnectionInfo)
    (h : edgeOf g a b = some i) :
    edgeOf (backlinkEdgeStep v src g te) a b = some i := by
  unfold backlinkEdgeStep
  split
  · exact h
  · rename_i hnohas
    cases v.files.find? (fun fl => fl.path == src) with
    | some sf =>
      rw [edgeOf_graphSetEdge]
      split
      · rename_i hcond
        obtain ⟨ha, hb, _⟩ := hcond
        subst ha
        subst hb
        unfold edgeOf at h
        have hhas : mapHas (graphAdj g te.1) b = true := by
          unfold mapHas
          rw [h]
          rfl
        exact absurd hhas hnohas
      · exact h
    | none => exact h

theorem backlinkEdgeStep_edge_of_ne (v : Vault) (src : String) (g : EnhancedGraph)
    (te : String × ConnectionInfo) (a b : String) (hne : a ≠ te.1 ∨ b ≠ src) :
    edgeOf (backlinkEdgeStep v src g te) a b = edgeOf g a b := by
  unfold backlinkEdgeStep
  split
  · rfl
  · cases v.files.find? (fun fl => fl.path == src) with
    | some sf =>
      rw [edgeOf_graphSetEdge]
      split
      · rename_i hcond
        rcases hne with h | h
        · exact absurd hcond.1 h
        · exact absurd hcond.2.1 h
      · rfl
    | none => rfl

theorem backlinkEdgeStep_edge_isSome_mono (v : Vault) (src : String)
    (g : EnhancedGraph) (te : String × ConnectionInfo) (a b : String)
    (h : (edgeOf g a b).isSome = true) :
    (edgeOf (backlinkEdgeStep v src g te) a b).isSome = true := by
  obtain ⟨i, hi⟩ := Option.isSome_iff_exists.mp h
  rw [backlinkEdgeStep_edge_mono v src g te a b i hi]
  rfl

theorem backlinkKeyStep_edge_mono (v : Vault) (g : EnhancedGraph) (src a b : String)
    (i : ConnectionInfo) (h : edgeOf g a b = some i) :
    edgeOf (backlinkKeyStep v g src) a b = some i := by
  unfold backlinkKeyStep
  exact foldl_keep (P := fun g' => edgeOf g' a b = some i) _ _ g h
    (fun b' te _ hb' => backlinkEdgeStep_edge_mono v src b' te a b i hb')

theorem backlinkKeyStep_edge_of_ne (v : Vault) (g : EnhancedGraph) (src a b : String)
    (hb : b ≠ src) : edgeOf (backlinkKeyStep v g src) a b = edgeOf g a b := by
  unfold backlinkKeyStep
  exact foldl_edgeOf_congr _ _ a b
    (fun g' te _ => backlinkEdgeStep_edge_of_ne v src g' te a b (Or.inr hb)) g

theorem processBacklinks_edge_mono (v : Vault) (g0 : EnhancedGraph) (a b : String)
    (i : ConnectionInfo) (h : edgeOf g0 a b = some i) :
    edgeOf (processBacklinks v g0) a b = some i := by
  unfold processBacklinks
  exact foldl_keep (P := fun g' => edgeOf g' a b = some i) _ _ g0 h
    (fun b' src _ hb' => backlinkKeyStep_edge_mono v b' src a b i hb')

theorem edgeOf_source_isSome {g : EnhancedGraph} {a b : String} {i : ConnectionInfo}
    (h : edgeOf g a b = some i) : (lookupM g a).isSome = true := by
  unfold edgeOf graphAdj at h
  cases hga : lookupM g a with
  | none => rw [hga] at h; simp [lookupM] at h
  | some adj => rfl

theorem ClosedP_target_isSome {g : EnhancedGraph} (hcl : ClosedP g) {a b : String}
    {i : ConnectionInfo} (h : edgeOf g a b = some i) :
    (lookupM g b).isSome = true := by
  unfold edgeOf graphAdj at h
  cases hga : lookupM g a with
  | none => rw [hga] at h; simp [lookupM] at h
  | some adj =>
    rw [hga] at h
    simp only [Option.getD_some] at h
    exact hcl (a, adj) (mem_of_lookupM_eq_some hga) (b, i) (mem_of_lookupM_eq_some h)

theorem backlinkKeyStep_estab (v : Vault) (u w : String)
    (hfile : (v.files.find? (fun fl => fl.path == u)).isSome = true)
    (g : EnhancedGraph) (hquw : edgeOf g w u = none)
    (hkw : (lookupM g w).isSome = true) (hedge : edgeOf g u w ≠ none) :
    ∃ j, edgeOf (backlinkKeyStep v g u) w u = some j ∧
      j.type = ConnectionType.backlink := by
  cases hi : edgeOf g u w with
  | none => exact absurd hi hedge
  | some i0 =>
    have hmem : (w, i0) ∈ graphAdj g u := by
      unfold edgeOf at hi
      exact mem_of_lookupM_eq_some hi
    obtain ⟨sf, hsf⟩ := Option.isSome_iff_exists.mp hfile
    have hest : ∀ (b : EnhancedGraph),
        (edgeOf b w u = none ∧ (lookupM b w).isSome = true) →
        ∀ (te : String × ConnectionInfo), te.1 = w →
        ∃ j, edgeOf (backlinkEdgeStep v u b te) w u = some j ∧
          j.type = ConnectionType.backlink := by
      intro b hQ te htw
      unfold backlinkEdgeStep
      have hnohas : ¬ (mapHas (graphAdj b te.1) u = true) := by
        rw [htw]
        unfold mapHas
        unfold edgeOf at hQ
        rw [hQ.1]
        simp
      rw [if_neg hnohas, hsf]
      refine ⟨{ type := .backlink, metadata := some (getFileMetadata v sf) }, ?_, rfl⟩
      rw [edgeOf_graphSetEdge, htw, if_pos ⟨rfl, rfl, hQ.2⟩]
    unfold backlinkKeyStep
    refine foldl_estab (x := (w, i0))
      (P := fun g' => ∃ j, edgeOf g' w u = some j ∧ j.type = ConnectionType.backlink)
      (Q := fun g' => edgeOf g' w u = none ∧ (lookupM g' w).isSome = true)
      (graphAdj g u) hmem ?_ ?_ ?_ g (Or.inl ⟨hquw, hkw⟩)
    · intro b te _ hb
      obtain ⟨j, hj, hjt⟩ := hb
      exact ⟨j, backlinkEdgeStep_edge_mono v u b te w u j hj, hjt⟩
    · intro b te _ hb
      by_cases htw : te.1 = w
      · exact Or.inr (hest b hb te htw)
      · refine Or.inl ⟨?_, ?_⟩
        · rw [backlinkEdgeStep_edge_of_ne v u b te w u (Or.inl (fun h => htw h.symm))]
          exact hb.1
        · rw [isSome_backlinkEdgeStep]
          exact hb.2
    · intro b hb
      exact hest b hb (w, i0) rfl

theorem processBacklinks_backlink_added (v : Vault) (g0 : EnhancedGraph)
    (u w : String) (i0 : ConnectionInfo)
    (hfile : (v.files.find? (fun fl => fl.path == u)).isSome = true)
    (hkw : (lookupM g0 w).isSome = true)
    (h1 : edgeOf g0 u w = some i0) (h2 : edgeOf g0 w u = none) :
    ∃ j, edgeOf (processBacklinks v g0) w u = some j ∧
      j.type = ConnectionType.backlink := by
  have hu : (lookupM g0 u).isSome = true := edgeOf_source_isSome h1
  have hx : u ∈ g0.map Prod.fst := (lookupM_isSome_iff_mem g0 u).mp hu
  unfold processBacklinks
  refine foldl_estab (x := u)
    (P := fun g' => ∃ j, edgeOf g' w u = some j ∧ j.type = ConnectionType.backlink)
    (Q := fun g' => edgeOf g' w u = none ∧ (lookupM g' w).isSome = true ∧
      edgeOf g' u w = some i0)
    (g0.map Prod.fst) hx ?_ ?_ ?_ g0 (Or.inl ⟨h2, hkw, h1⟩)
  · intro b k _ hb
    obtain ⟨j, hj, hjt⟩ := hb
    exact ⟨j, backlinkKeyStep_edge_mono v b k w u j hj, hjt⟩
  · intro b k _ hb
    by_cases hk : k = u
    · subst hk
      exact Or.inr (backlinkKeyStep_estab v k w hfile b hb.1 hb.2.1
        (by rw [hb.2.2]; exact fun h => Option.noConfusion h))
    · refine Or.inl ⟨?_, ?_, ?_⟩
      · rw [backlinkKeyStep_edge_of_ne v b k w u (fun h => hk h.symm)]
        exact hb.1
      · rw [isSome_backlinkKeyStep]
        exact hb.2.1
      · exact backlinkKeyStep_edge_mono v b k u w i0 hb.2.2
  · intro b hb
    exact backlinkKeyStep_estab v u w hfile b hb.1 hb.2.1
      (by rw [hb.2.2]; exact fun h => Option.noConfusion h)

/-- Every edge of the graph after the backlink pass either already existed
before the pass or has its reverse present. -/
def SymExt (g0 g' : EnhancedGraph) : Prop :=
  ∀ a b, (edgeOf g' a b).isSome = true →
    (edgeOf g0 a b).isSome = true ∨ (edgeOf g' b a).isSome = true

theorem backlinkEdgeStep_symExt (v : Vault) (src : String) (g0 b : EnhancedGraph)
    (te : String × ConnectionInfo)
    (hrev : (edgeOf b src te.1).isSome = true)
    (h : SymExt g0 b) : SymExt g0 (backlinkEdgeStep v src b te) := by
  intro a c hac
  by_cases hslot : a = te.1 ∧ c = src
  · refine Or.inr ?_
    rw [hslot.1, hslot.2]
    exact backlinkEdgeStep_edge_isSome_mono v src b te src te.1 hrev
  · have hne : a ≠ te.1 ∨ c ≠ src := by
      by_cases h1 : a = te.1
      · exact Or.inr (fun h2 => hslot ⟨h1, h2⟩)
      · exact Or.inl h1
    rw [backlinkEdgeStep_edge_of_ne v src b te a c hne] at hac
    rcases h a c hac with h0 | hr
    · exact Or.inl h0
    · exact Or.inr (backlinkEdgeStep_edge_isSome_mono v src b te c a hr)

theorem backlinkKeyStep_symExt (v : Vault) (g0 b : EnhancedGraph) (src : String)
    (h : SymExt g0 b) : SymExt g0 (backlinkKeyStep v b src) := by
  unfold backlinkKeyStep
  have hfold := foldl_keep
    (P := fun g' => SymExt g0 g' ∧
      ∀ te ∈ graphAdj b src, (edgeOf g' src te.1).isSome = true)
    (backlinkEdgeStep v src) (graphAdj b src) b
    ⟨h, fun te hte => by
      unfold edgeOf
      exact (lookupM_isSome_iff_mem _ _).mpr (List.mem_map_of_mem Prod.fst hte)⟩
    (fun b' a ha hb' =>
      ⟨backlinkEdgeStep_symExt v src g0 b' a (hb'.2 a ha) hb'.1,
       fun te hte => backlinkEdgeStep_edge_isSome_mono v src b' a src te.1 (hb'.2 te hte)⟩)
  exact hfold.1

theorem processBacklinks_symExt (v : Vault) (g0 : EnhancedGraph) :
    SymExt g0 (processBacklinks v g0) := by
  unfold processBacklinks
  exact foldl_keep (P := SymExt g0) _ _ g0 (fun a b hab => Or.inl hab)
    (fun b' src _ hb' => backlinkKeyStep_symExt v g0 b' src hb')

theorem processFile_isSome (v : Vault) (s : Settings) (f : VaultFile)
    (g : EnhancedGraph) (x : String) :
    (lookupM (processFile v s f g) x).isSome = (lookupM g x).isSome := by
  have hset : ∀ (b : EnhancedGraph) (tgt : String) (i : ConnectionInfo),
      (lookupM (graphSetEdge b f.path tgt i) x).isSome = (lookupM b x).isSome :=
    fun b tgt i => isSome_lookupM_graphSetEdge b f.path tgt x i
  have h1 : ∀ (b : EnhancedGraph) (linkText : String),
      (lookupM
        (if linkText ≠ "" then
          match findNoteByName v linkText with
          | some lf =>
            graphSetEdge b f.path lf.path
              { type := .direct, metadata := some (getFileMetadata v lf) }
          | none => b
        else b) x).isSome = (lookupM b x).isSome := by
    intro b linkText
    split
    · cases findNoteByName v linkText with
      | some lf => exact hset b lf.path _
      | none => rfl
    · rfl
  have h2 : ∀ (b : EnhancedGraph) (linkText : String),
      (lookupM
        (if linkText ≠ "" then
          match findNoteByName v linkText with
          | some lf =>
            graphSetEdge b f.path lf.path
              { type := .embedded, metadata := some (getFileMetadata v lf) }
          | none => b
        else b) x).isSome = (lookupM b x).isSome := by
    intro b linkText
    split
    · cases findNoteByName v linkText with
      | some lf => exact hset b lf.path _
      | none => rfl
    · rfl
  have hF1 := foldl_isSome_congr _ (v.wikiLinks f.path) x (fun b a _ => h1 b a)
  have hF2 := foldl_isSome_congr _ (v.embedLinks f.path) x (fun b a _ => h2 b a)
  have hF3 : ∀ (l : List (VaultFile × List String)) (b : EnhancedGraph),
      (lookupM (l.foldl (fun g oc => graphSetEdge g f.path oc.1.path
        { type := ConnectionType.tag, commonTags := some oc.2,
          metadata := some (getFileMetadata v oc.1) }) b) x).isSome =
        (lookupM b x).isSome :=
    fun l => foldl_isSome_congr _ l x
      (fun b (a : VaultFile × List String) _ => hset b a.1.path _)
  unfold processFile
  split
  · rfl
  · split
    · rfl
    · simp only [apply_ite (fun g => (lookupM g x).isSome), hF1, hF2, hF3, ite_self]

theorem buildGraphForward_keys (v : Vault) (s : Settings) (x : String) :
    (lookupM (buildGraphForward v s) x).isSome = true ↔ ∃ f ∈ v.files, f.path = x := by
  unfold buildGraphForward
  rw [foldl_isSome_congr _ _ x (fun b a _ => processFile_isSome v s a b x) _]
  exact lookupM_initGraph_isSome v x

theorem processBacklinks_symmetric (v : Vault) (g0 : EnhancedGraph)
    (hcl : ClosedP g0)
    (hfiles : ∀ k, (lookupM g0 k).isSome = true →
      (v.files.find? (fun fl => fl.path == k)).isSome = true) :
    ∀ a b, (edgeOf (processBacklinks v g0) a b).isSome = true →
      (edgeOf (processBacklinks v g0) b a).isSome = true := by
  intro a b hab
  rcases processBacklinks_symExt v g0 a b hab with h0 | hr
  · obtain ⟨i0, hi0⟩ := Option.isSome_iff_exists.mp h0
    cases hba : edgeOf g0 b a with
    | some j =>
      rw [processBacklinks_edge_mono v g0 b a j hba]
      rfl
    | none =>
      obtain ⟨j, hj, _⟩ := processBacklinks_backlink_added v g0 a b i0
        (hfiles a (edgeOf_source_isSome hi0)) (ClosedP_target_isSome hcl hi0) hi0 hba
      rw [hj]
      rfl
  · exact hr

/-- C7.  With backlink inference enabled, every forward edge whose target
lacked an edge back to the source gets a synthesized Backlink edge there,
and in the final graph every edge has some reverse edge. -/
theorem C7_backlink_pass (v : Vault) (s : Settings)
    (hbl : s.includeBacklinks = true) :
    (∀ (u w : String) (i : ConnectionInfo),
      edgeOf (buildGraphForward v s) u w = some i →
      edgeOf (buildGraphForward v s) w u = none →
      ∃ j, edgeOf (buildGraph v s) w u = some j ∧
        j.type = ConnectionType.backlink) ∧
    (∀ (u w : String), (edgeOf (buildGraph v s) u w).isSome = true →
      (edgeOf (buildGraph v s) w u).isSome = true) := by
  have hbg : buildGraph v s = processBacklinks v (buildGraphForward v s) := by
    unfold buildGraph
    rw [if_pos hbl]
  have hcl := (buildGraphForward_good v s).1
  have hfiles : ∀ k, (lookupM (buildGraphForward v s) k).isSome = true →
      (v.files.find? (fun fl => fl.path == k)).isSome = true := by
    intro k hk
    obtain ⟨f0, hf0, hp0⟩ := (buildGraphForward_keys v s k).mp hk
    rw [List.find?_isSome]
    exact ⟨f0, hf0, by simp [hp0]⟩
  constructor
  · intro u w i h1 h2
    rw [hbg]
    exact processBacklinks_backlink_added v _ u w i
      (hfiles u (edgeOf_source_isSome h1)) (ClosedP_target_isSome hcl h1) h1 h2
  · intro u w h
    rw [hbg] at h ⊢
    exact processBacklinks_symmetric v _ hcl hfiles u w h

theorem C7_backlink_pass_witness :
    (settingsDefault.includeBacklinks = true ∧
      edgeOf (buildGraphForward vaultAtoB settingsDefault) "A.md" "B.md" =
        some edgeDMetaB ∧
      edgeOf (buildGraphForward vaultAtoB settingsDefault) "B.md" "A.md" = none) ∧
    (∃ j, edgeOf (buildGraph vaultAtoB settingsDefault) "B.md" "A.md" = some j ∧
      j.type = ConnectionType.backlink) :=
  ⟨⟨by decide, by decide, by decide⟩,
   (C7_backlink_pass vaultAtoB settingsDefault (by decide)).1 "A.md" "B.md"
     edgeDMetaB (by decide) (by decide)⟩
